import Mathlib

/-!
Verification of the crossword CSP engine in `generate.py`.

The Python module defines `CrosswordCreator`, a constraint solver over a
`Crossword` puzzle object.  Words are modelled as lists of characters,
Python `set` domains as duplicate-free lists, dictionaries keyed by the
puzzle's variables as total functions, and Python exceptions escaping a
function as an `Option`/dedicated constructor (`none` / `.fault`).
Loops that Python runs to completion are modelled with an explicit fuel
parameter together with lemmas showing the canonical fuel is sufficient,
so that every function here is structurally recursive and executable.
-/

/-- A candidate word: Python strings are modelled as lists of characters. -/
abbrev Word := List Char

/-- Modelled from the spec (§3 Data Model): a grid slot of `crossword.py`
(missing from the sources), identified structurally by starting row `i`,
starting column `j`, direction and `length`. -/
structure Variable where
  i : Nat
  j : Nat
  down : Bool
  length : Nat
deriving DecidableEq

/-- Modelled from the spec (§3, §6): the immutable puzzle object built by
`crossword.py` (missing from the sources) — the variable set, the word
vocabulary, and the precomputed overlap table (`none` for pairs of
variables that never share a cell). -/
structure Crossword where
  vars : List Variable
  words : List Word
  overlaps : Variable → Variable → Option (Nat × Nat)

/-- The mutable domain store `self.domains`: a map from variables to their
current candidate sets (duplicate-free lists). -/
abbrev Domains := Variable → List Word

/-- A (partial) assignment: `none` models Python `None`. -/
abbrev Assignment := Variable → Option Word

/-- Pointwise update of the domain store (mutation of `self.domains[x]`). -/
def setDom (d : Domains) (x : Variable) (ws : List Word) : Domains :=
  fun v => if v = x then ws else d v

/-- Pointwise update of an assignment dict (`assignment[var] = value`). -/
def setAssign (a : Assignment) (v : Variable) (w : Option Word) : Assignment :=
  fun u => if u = v then w else a u

/-- Modelled from the spec (§3): `Crossword.neighbors(var)` of
`crossword.py` — every other variable whose overlap with `var` is
defined. -/
def neighbors (c : Crossword) (v : Variable) : List Variable :=
  c.vars.filter (fun u => !(u == v) && (c.overlaps u v).isSome)

/-- Modelled from the spec (§3, §4.3): the key set of the overlap table —
every ordered pair of distinct variables (pairs without a shared cell are
present with value `none`). -/
def allArcs (c : Crossword) : List (Variable × Variable) :=
  c.vars.flatMap (fun v1 =>
    (c.vars.filter (fun v2 => !(v2 == v1))).map (fun v2 => (v1, v2)))

/-- `CrosswordCreator.__init__`: every variable's initial domain is a copy
of the full vocabulary `self.crossword.words`. -/
def initialDomains (c : Crossword) : Domains :=
  fun _ => c.words

/-- One entry of the well-formedness check for the overlap table. -/
def overlapOkB (c : Crossword) (x y : Variable) : Bool :=
  if x = y then c.overlaps x y == none
  else
    match c.overlaps x y with
    | none => true
    | some (i, j) =>
        (c.overlaps y x == some (j, i)) && decide (i < x.length) &&
          decide (j < y.length)

/-- Modelled from the spec (§3): the guarantees the Puzzle Model builder
(`crossword.py`, missing from the sources) establishes — the vocabulary is
a set (no duplicates), no variable overlaps itself, the overlap table is
symmetric, and overlap indices lie inside the two slots. -/
def wf (c : Crossword) : Bool :=
  decide c.words.Nodup &&
    c.vars.all (fun x => c.vars.all (fun y => overlapOkB c x y))

/-- `CrosswordCreator.enforce_node_consistency`: for every variable,
collect the domain words strictly longer than the slot and remove them.
(The code removes only longer words, leaving shorter ones in place.) -/
def enforceNodeConsistency (c : Crossword) (d : Domains) : Domains :=
  fun v =>
    if v ∈ c.vars then
      ((d v).filter (fun w => decide (w.length > v.length))).foldl
        (fun cur w => cur.erase w) (d v)
    else d v

/-- Inner loop of `CrosswordCreator.revise`: scan `y`'s domain for a word
agreeing with `wx` at the overlap indices; an `IndexError` (a word too
short for its index) is caught and treated as "no match". -/
def findSupport (kx ky : Nat) (wx : Word) : List Word → Bool
  | [] => false
  | wy :: rest =>
    match wx[kx]? with
    | none => findSupport kx ky wx rest
    | some a =>
      match wy[ky]? with
      | none => findSupport kx ky wx rest
      | some b => if a = b then true else findSupport kx ky wx rest

/-- `CrosswordCreator.revise`: collect the words of `x`'s domain with no
support in `y`'s domain, remove them, and report whether any removal was
made.  The `none`-overlap branch is unreachable from `ac3`, the only
caller, which skips arcs without an overlap. -/
def revise (c : Crossword) (d : Domains) (x y : Variable) : Domains × Bool :=
  match c.overlaps x y with
  | none => (d, false)
  | some (kx, ky) =>
    let removals := (d x).filter (fun wx => ! findSupport kx ky wx (d y))
    (setDom d x (removals.foldl (fun cur w => cur.erase w) (d x)),
      ! removals.isEmpty)

/-- Total size of the domain store over the puzzle's variables (the
termination measure of AC-3). -/
def totalSize (c : Crossword) (d : Domains) : Nat :=
  (c.vars.map (fun v => (d v).length)).sum

/-- Result of an AC-3 run: `res b d` models returning the boolean `b` with
the domain store mutated to `d`; `out d` is fuel exhaustion (shown
unreachable for the canonical fuel). -/
inductive AC3Out where
  | out (d : Domains)
  | res (b : Bool) (d : Domains)

/-- The boolean an AC-3 run returned, if it completed. -/
def AC3Out.flag : AC3Out → Option Bool
  | .out _ => none
  | .res b _ => some b

/-- The domain store after an AC-3 run. -/
def AC3Out.doms : AC3Out → Domains
  | .out d => d
  | .res _ d => d

/-- The `while` loop of `CrosswordCreator.ac3`: pop the front arc, skip it
if its overlap is `none`, otherwise revise; return `False` as soon as the
revised domain is empty, and on a removal re-enqueue every arc whose
destination is the revised variable. -/
def ac3Loop (c : Crossword) : Nat → Domains → List (Variable × Variable) → AC3Out
  | 0, d, _ => .out d
  | fuel+1, d, queue =>
    match queue with
    | [] => .res true d
    | arc :: rest =>
      match c.overlaps arc.1 arc.2 with
      | none => ac3Loop c fuel d rest
      | some _ =>
        let r := revise c d arc.1 arc.2
        if (r.1 arc.1).length = 0 then .res false r.1
        else if r.2 then
          ac3Loop c fuel r.1
            (rest ++ (allArcs c).filter (fun (pa : Variable × Variable) => pa.2 == arc.1))
        else ac3Loop c fuel r.1 rest

/-- Fuel sufficient for any AC-3 run (each iteration either shortens the
queue or strictly shrinks the store while enqueuing at most all arcs). -/
def ac3Fuel (c : Crossword) (d : Domains) : Nat :=
  totalSize c d * ((allArcs c).length + 1) + (allArcs c).length + 1

/-- `CrosswordCreator.ac3` as invoked with `arcs=None`: start from the
queue of all arcs of the puzzle. -/
def ac3 (c : Crossword) (d : Domains) : AC3Out :=
  ac3Loop c (ac3Fuel c d) d (allArcs c)

/-- `CrosswordCreator.ac3` including its `arcs` parameter.  When `arcs` is
not `None` the local `arc_queue` is never initialized, so the `while`
condition raises `UnboundLocalError`: modelled as `none`. -/
def ac3WithArcs (c : Crossword) (d : Domains)
    (arcs : Option (List (Variable × Variable))) : Option AC3Out :=
  match arcs with
  | none => some (ac3 c d)
  | some _ => none

/-- `CrosswordCreator.assignment_complete`: no key of the assignment dict
maps to `None`. -/
def assignmentComplete (c : Crossword) (a : Assignment) : Bool :=
  c.vars.all (fun v => (a v).isSome)

/-- Uniqueness loop of `CrosswordCreator.consistent` (lines 208-212): some
other variable is assigned the identical word. -/
def duplicateExists (c : Crossword) (a : Assignment) (v : Variable)
    (w : Word) : Bool :=
  c.vars.any (fun cv => !(cv == v) && a cv == some w)

/-- Neighbor loop of `CrosswordCreator.consistent` (lines 219-230): check
the overlap characters against every assigned neighbor; an out-of-range
index here is an uncaught `IndexError`, modelled as `none`. -/
def checkNeighbors (c : Crossword) (a : Assignment) (v : Variable)
    (w : Word) : List Variable → Option Bool
  | [] => some true
  | u :: rest =>
    match a u with
    | none => checkNeighbors c a v w rest
    | some wu =>
      match c.overlaps v u with
      | none => checkNeighbors c a v w rest
      | some (i, j) =>
        match w[i]? with
        | none => none
        | some ch1 =>
          match wu[j]? with
          | none => none
          | some ch2 =>
            if ch1 = ch2 then checkNeighbors c a v w rest else some false

/-- Main loop of `CrosswordCreator.consistent` over the assignment keys. -/
def consistentAux (c : Crossword) (a : Assignment) : List Variable → Option Bool
  | [] => some true
  | v :: rest =>
    match a v with
    | none => consistentAux c a rest
    | some w =>
      if duplicateExists c a v w then some false
      else if !(w.length == v.length) then some false
      else
        match checkNeighbors c a v w (neighbors c v) with
        | none => none
        | some false => some false
        | some true => consistentAux c a rest

/-- `CrosswordCreator.consistent`: `some b` is a returned boolean, `none`
an `IndexError` escaping the neighbor check. -/
def consistent (c : Crossword) (a : Assignment) : Option Bool :=
  consistentAux c a c.vars

/-- One elimination test of `CrosswordCreator.order_domain_values`: a
neighbor's candidate is ruled out if it equals the value or if the overlap
characters disagree (an `IndexError` also counts as ruled out). -/
def ruledOutFor (ov : Nat × Nat) (w comp : Word) : Bool :=
  if comp == w then true
  else
    match w[ov.1]? with
    | none => true
    | some c1 =>
      match comp[ov.2]? with
      | none => true
      | some c2 => !(c1 == c2)

/-- Elimination count of one candidate in
`CrosswordCreator.order_domain_values`: assigned neighbors contribute
nothing.  The `none`-overlap branch would raise `TypeError` in Python; it
is unreachable because neighbors always have a defined overlap. -/
def numRuledOut (c : Crossword) (d : Domains) (v : Variable) (a : Assignment)
    (w : Word) : Nat :=
  ((neighbors c v).map (fun u =>
    match a u with
    | some _ => 0
    | none =>
      match c.overlaps v u with
      | none => 0
      | some ov => ((d u).filter (fun comp => ruledOutFor ov w comp)).length)).sum

/-- Stable insertion of a word into a sorted list (`le` is the key
comparison). -/
def insertSorted (le : Word → Word → Bool) (w : Word) : List Word → List Word
  | [] => [w]
  | x :: xs => if le w x then w :: x :: xs else x :: insertSorted le w xs

/-- Stable ascending sort; Python's `sorted` is a stable ascending sort,
and a stable sort's output is uniquely determined, so this computes what
`sorted(value_elimination_dict, key=value_elimination_dict.get)` does. -/
def insertionSort (le : Word → Word → Bool) : List Word → List Word
  | [] => []
  | w :: ws => insertSorted le w (insertionSort le ws)

/-- `CrosswordCreator.order_domain_values`: the domain of `var` sorted
ascending (stably) by the number of neighbor candidates each value rules
out. -/
def orderDomainValues (c : Crossword) (d : Domains) (v : Variable)
    (a : Assignment) : List Word :=
  insertionSort
    (fun w1 w2 => decide (numRuledOut c d v a w1 ≤ numRuledOut c d v a w2))
    (d v)

/-- `CrosswordCreator.select_unassigned_variable`: return the first key of
the assignment dict whose value is `None` (the MRV/degree heuristic of the
docstring is not implemented). -/
def selectUnassignedVariable (c : Crossword) (a : Assignment) : Option Variable :=
  c.vars.find? (fun v => (a v).isNone)

/-- Result of the backtracking search: `found a` is a returned assignment,
`failure` is Python `None`, `fault` an exception escaping the search
(`IndexError` from `consistent`, or calling with no unassigned variable
left), `out` fuel exhaustion (shown unreachable for the canonical fuel). -/
inductive BTOut where
  | out
  | fault
  | failure
  | found (a : Assignment)

/-- Whether the search returned an assignment. -/
def BTOut.isFound : BTOut → Bool
  | .found _ => true
  | _ => false

/-- Whether the search returned Python `None`. -/
def BTOut.isFailure : BTOut → Bool
  | .failure => true
  | _ => false

/-- The assignment the search returned (all-unassigned otherwise). -/
def BTOut.getA : BTOut → Assignment
  | .found a => a
  | _ => fun _ => none

/-- The `for value in ...` loop of `CrosswordCreator.backtrack`: extend the
assignment with the next candidate, keep it only if the extension is
consistent, recurse (`bt`), and on failure undo and continue. -/
def tryWords (c : Crossword) (bt : Assignment → BTOut) (v : Variable)
    (a : Assignment) : List Word → BTOut
  | [] => .failure
  | w :: ws =>
    match consistent c (setAssign a v (some w)) with
    | none => .fault
    | some false => tryWords c bt v a ws
    | some true =>
      match bt (setAssign a v (some w)) with
      | .failure => tryWords c bt v a ws
      | r => r

/-- `CrosswordCreator.backtrack` with fuel (one unit per recursion level;
the canonical fuel exceeds the recursion depth, which is bounded by the
number of variables). -/
def backtrackFuel (c : Crossword) (d : Domains) : Nat → Assignment → BTOut
  | 0 => fun _ => .out
  | fuel+1 => fun a =>
    if assignmentComplete c a then .found a
    else
      match selectUnassignedVariable c a with
      | none => .fault
      | some v =>
        tryWords c (backtrackFuel c d fuel) v a (orderDomainValues c d v a)

/-- `CrosswordCreator.backtrack` at its canonical fuel.  `solve` passes
`dict()`, which `backtrack` fills with `None` for every variable: the
all-`none` assignment models that starting point. -/
def backtrack (c : Crossword) (d : Domains) (a : Assignment) : BTOut :=
  backtrackFuel c d (c.vars.length + 1) a

/-- `CrosswordCreator.solve`: enforce node consistency, run `ac3` — whose
boolean result is discarded (line 94) — and start the backtracking search
from the empty assignment on the pruned store. -/
def solve (c : Crossword) : BTOut :=
  backtrack c
    ((ac3 c (enforceNodeConsistency c (initialDomains c))).doms)
    (fun _ => none)

/-- Specification-side predicate ("Consistency Check" of spec §4.4, stated
semantically): the word of `x` has a supporting word in `y`'s current
domain, agreeing at the overlap indices. -/
def arcSupported (c : Crossword) (d : Domains) (x y : Variable) : Prop :=
  ∀ kx ky, c.overlaps x y = some (kx, ky) →
    ∀ wx ∈ d x, findSupport kx ky wx (d y) = true

/-- Specification-side predicate: `t` assigns vocabulary words to all
variables and satisfies every length, distinctness and overlap
constraint (hypothesis of the search-completeness claim). -/
def isSolution (c : Crossword) (t : Variable → Word) : Bool :=
  c.vars.all (fun v => c.words.contains (t v)) &&
  c.vars.all (fun v => (t v).length == v.length) &&
  c.vars.all (fun x => c.vars.all (fun y =>
    (x == y) || !(t x == t y))) &&
  c.vars.all (fun x => c.vars.all (fun y =>
    match c.overlaps x y with
    | none => true
    | some (i, j) => (t x)[i]? == (t y)[j]?))

/-- Number of unassigned puzzle variables (the recursion depth bound of
the backtracking search). -/
def unassignedCount (c : Crossword) (a : Assignment) : Nat :=
  (c.vars.filter (fun v => (a v).isNone)).length

-- Concrete instances used by witnesses and counterexamples.

/-- Across slot of length 2 at the origin. -/
def vA : Variable := ⟨0, 0, false, 2⟩

/-- Down slot of length 2 crossing `vA`. -/
def vB : Variable := ⟨0, 0, true, 2⟩

/-- Scenario puzzle of spec §8: two crossing slots of length 2 with
vocabulary {"at", "to", "ox"}; `vA`'s second letter meets `vB`'s first. -/
def cW : Crossword where
  vars := [vA, vB]
  words := [['a', 't'], ['t', 'o'], ['o', 'x']]
  overlaps := fun x y =>
    if x = vA ∧ y = vB then some (1, 0)
    else if x = vB ∧ y = vA then some (0, 1)
    else none

/-- The crossing solution `vA ↦ "at"`, `vB ↦ "to"`. -/
def tW : Variable → Word :=
  fun v => if v = vB then ['t', 'o'] else ['a', 't']

/-- Isolated slot of length 3. -/
def v3 : Variable := ⟨0, 0, false, 3⟩

/-- Puzzle exposing the node-consistency bug: a single slot of length 3
with the too-short word "ab" in the vocabulary. -/
def cE3 : Crossword where
  vars := [v3]
  words := [['a', 'b']]
  overlaps := fun _ _ => none

/-- Isolated slot of length 1. -/
def v5 : Variable := ⟨0, 0, false, 1⟩

/-- Puzzle whose single (overlap-free) variable ends with an empty domain:
its only word is longer than the slot, so node consistency removes it. -/
def cE5 : Crossword where
  vars := [v5]
  words := [['a', 'b']]
  overlaps := fun _ _ => none

/-- Puzzle exposing the `IndexError` in `consistent`: the two length-2
slots of `cW` geometry, crossing at index 1 of both. -/
def cE7 : Crossword where
  vars := [vA, vB]
  words := [['a', 'b'], ['x']]
  overlaps := fun x y =>
    if x = vA ∧ y = vB then some (1, 1)
    else if x = vB ∧ y = vA then some (1, 1)
    else none

/-- Assignment hitting the fault: `vA ↦ "ab"` (correct length), `vB ↦ "x"`
(too short for overlap index 1). -/
def aE7 : Assignment :=
  fun v => if v = vA then some ['a', 'b'] else
    if v = vB then some ['x'] else none

/-- Domain store with unequal domain sizes: `vA` keeps two candidates,
`vB` only one. -/
def dE8 : Domains :=
  fun v => if v = vB then [['a']] else [['a'], ['b']]

/-- Across and down slots of length 3. -/
def vX : Variable := ⟨0, 0, false, 3⟩

/-- Down slot of length 3 crossing `vX`. -/
def vY : Variable := ⟨0, 2, true, 3⟩

/-- Infeasible scenario puzzle of spec §8: two crossing length-3 slots
whose overlap (index 0 of `vX`, index 2 of `vY`) no pair of vocabulary
words can satisfy. -/
def cI : Crossword where
  vars := [vX, vY]
  words := [['c', 'a', 't'], ['d', 'o', 'g']]
  overlaps := fun x y =>
    if x = vX ∧ y = vY then some (0, 2)
    else if x = vY ∧ y = vX then some (2, 0)
    else none

-- Generic list facts relating the collect-then-remove loops to filters.

/-- Folding `erase` over any removal list yields a sublist. -/
theorem foldl_erase_sublist (rs : List Word) :
    ∀ l : List Word, (rs.foldl (fun cur w => cur.erase w) l).Sublist l := by
  induction rs with
  | nil => intro l; exact List.Sublist.refl l
  | cons r rs ih =>
    intro l
    exact (ih (l.erase r)).trans (List.erase_sublist r l)

/-- On a duplicate-free list, `erase` is a filter. -/
theorem nodup_erase_eq_filter (a : Word) :
    ∀ l : List Word, l.Nodup → l.erase a = l.filter (fun b => !(b == a)) := by
  intro l
  induction l with
  | nil => intro _; rfl
  | cons b t ih =>
    intro h
    rw [List.erase_cons, List.filter_cons]
    by_cases hba : b = a
    · subst hba
      have hbt : b ∉ t := (List.nodup_cons.mp h).1
      simp only [beq_self_eq_true, if_true, Bool.not_true, Bool.false_eq_true,
        if_false]
      symm
      rw [List.filter_eq_self]
      intro x hx
      have hxb : ¬(x == b) = true := by
        simp only [beq_iff_eq]
        intro he
        exact hbt (he ▸ hx)
      simp [hxb]
    · have hba' : (b == a) = false := by simp [hba]
      simp only [hba', Bool.false_eq_true, if_false, Bool.not_false, if_true]
      rw [ih (List.nodup_cons.mp h).2]

/-- On a duplicate-free list, removing the collected complement of a
predicate leaves exactly the filter. -/
theorem foldl_erase_filter (p : Word → Bool) :
    ∀ l : List Word, l.Nodup →
      (l.filter (fun w => !(p w))).foldl (fun cur w => cur.erase w) l =
        l.filter p := by
  have main : ∀ rs l : List Word, l.Nodup →
      rs.foldl (fun cur w => cur.erase w) l =
        l.filter (fun b => !(rs.contains b)) := by
    intro rs
    induction rs with
    | nil =>
      intro l _
      simp only [List.foldl_nil]
      symm
      rw [List.filter_eq_self]
      intro x _
      simp
    | cons r rs ih =>
      intro l hl
      have : (r :: rs).foldl (fun cur w => cur.erase w) l =
          rs.foldl (fun cur w => cur.erase w) (l.erase r) := rfl
      rw [this, ih (l.erase r) ((List.erase_sublist r l).nodup hl),
        nodup_erase_eq_filter r l hl, List.filter_filter]
      apply List.filter_congr
      intro x _
      simp only [List.contains_cons]
      cases hxr : x == r <;> cases hxs : rs.contains x <;> simp_all
  intro l hl
  rw [main _ l hl]
  apply List.filter_congr
  intro x hx
  cases hpx : p x
  · have : (l.filter (fun w => !(p w))).contains x = true := by
      simp only [List.contains_eq_any_beq, List.any_eq_true]
      exact ⟨x, List.mem_filter.mpr ⟨hx, by simp [hpx]⟩, by simp⟩
    simp [this, hpx, hx]
  · have : (l.filter (fun w => !(p w))).contains x = false := by
      simp only [List.contains_eq_any_beq, List.any_eq_false]
      intro y hy
      rcases List.mem_filter.mp hy with ⟨-, hyp⟩
      intro hbeq
      have : x = y := by simpa using hbeq
      subst this
      simp [hpx] at hyp
    simp [this, hpx, hx]

-- Characterizations of the pruning primitives.

/-- The inner loop of `revise` finds a support iff one exists: a word of
`y`'s domain whose overlap character matches (words too short at either
index never match). -/
theorem findSupport_iff (kx ky : Nat) (wx : Word) (l : List Word) :
    findSupport kx ky wx l = true ↔
      ∃ wy ∈ l, ∃ ch, wx[kx]? = some ch ∧ wy[ky]? = some ch := by
  induction l with
  | nil => simp [findSupport]
  | cons wy rest ih =>
    cases hx : wx[kx]? with
    | none =>
      rw [hx] at ih
      simp only [findSupport, hx, ih]
      constructor
      · rintro ⟨w, hw, ch, hch, hc⟩
        exact ⟨w, List.mem_cons_of_mem _ hw, ch, hch, hc⟩
      · rintro ⟨w, hw, ch, hch, hc⟩
        cases hch
    | some a =>
      rw [hx] at ih
      cases hy : wy[ky]? with
      | none =>
        simp only [findSupport, hx, hy, ih]
        constructor
        · rintro ⟨w, hw, ch, hch, hc⟩
          exact ⟨w, List.mem_cons_of_mem _ hw, ch, hch, hc⟩
        · rintro ⟨w, hw, ch, hch, hc⟩
          rcases List.mem_cons.mp hw with h | h
          · subst h; rw [hy] at hc; cases hc
          · exact ⟨w, h, ch, hch, hc⟩
      | some b =>
        by_cases hab : a = b
        · subst hab
          simp only [findSupport, hx, hy, eq_self_iff_true, if_true, true_iff]
          exact ⟨wy, List.mem_cons_self wy rest, a, rfl, hy⟩
        · simp only [findSupport, hx, hy, if_neg hab, ih]
          constructor
          · rintro ⟨w, hw, ch, hch, hc⟩
            exact ⟨w, List.mem_cons_of_mem _ hw, ch, hch, hc⟩
          · rintro ⟨w, hw, ch, hch, hc⟩
            rcases List.mem_cons.mp hw with h | h
            · subst h
              cases hch
              rw [hy] at hc
              cases hc
              exact absurd rfl hab
            · exact ⟨w, h, ch, hch, hc⟩

/-- With no overlap, `revise` leaves the store unchanged and reports no
revision. -/
theorem revise_none {c : Crossword} {d : Domains} {x y : Variable}
    (h : c.overlaps x y = none) : revise c d x y = (d, false) := by
  simp [revise, h]

/-- Domains of variables other than the revised one are untouched. -/
theorem revise_frame (c : Crossword) (d : Domains) (x y z : Variable)
    (hzx : z ≠ x) : (revise c d x y).1 z = d z := by
  unfold revise
  cases c.overlaps x y with
  | none => rfl
  | some p =>
    cases p with
    | mk kx ky => simp [setDom, hzx]

/-- Every domain after `revise` is a sublist of what it was. -/
theorem revise_sublist (c : Crossword) (d : Domains) (x y v : Variable) :
    ((revise c d x y).1 v).Sublist (d v) := by
  by_cases hvx : v = x
  · subst hvx
    unfold revise
    cases c.overlaps v y with
    | none => exact List.Sublist.refl _
    | some p =>
      cases p with
      | mk kx ky =>
        simp only [setDom, if_pos rfl]
        exact foldl_erase_sublist _ (d v)
  · rw [revise_frame c d x y v hvx]

/-- On a duplicate-free domain, `revise` keeps exactly the supported words
and reports whether an unsupported one existed. -/
theorem revise_char {c : Crossword} {d : Domains} {x y : Variable}
    {kx ky : Nat} (hov : c.overlaps x y = some (kx, ky))
    (hnd : (d x).Nodup) :
    (revise c d x y).1 x =
        (d x).filter (fun wx => findSupport kx ky wx (d y)) ∧
      (revise c d x y).2 =
        (d x).any (fun wx => ! findSupport kx ky wx (d y)) := by
  unfold revise
  rw [hov]
  simp only [setDom, if_pos rfl]
  constructor
  · exact foldl_erase_filter _ (d x) hnd
  · rw [Bool.eq_iff_iff]
    simp [List.isEmpty_iff, List.filter_eq_nil_iff, List.any_eq_true]

/-- A `revise` reporting no change leaves every domain as it was. -/
theorem revise_not_made {c : Crossword} {d : Domains} {x y : Variable}
    (h : (revise c d x y).2 = false) : ∀ v, (revise c d x y).1 v = d v := by
  intro v
  by_cases hvx : v = x
  · subst hvx
    unfold revise at h ⊢
    cases hov : c.overlaps v y with
    | none => rfl
    | some p =>
      cases p with
      | mk kx ky =>
        rw [hov] at h
        simp only at h
        have : ((d v).filter
            (fun wx => ! findSupport kx ky wx (d y))) = [] := by
          rw [← List.isEmpty_iff]
          simpa using h
        simp [setDom, this]
  · exact revise_frame c d x y v hvx

/-- Filtering out an actual member strictly shortens a list. -/
theorem filter_length_lt {l : List Word} {p : Word → Bool} {x : Word}
    (hx : x ∈ l) (hpx : ¬ p x = true) : (l.filter p).length < l.length := by
  by_contra hc
  push_neg at hc
  have heq : l.filter p = l :=
    List.Sublist.eq_of_length_le (List.filter_sublist l) hc
  exact hpx (List.filter_eq_self.mp heq x hx)

/-- A `revise` reporting a change strictly shrank the revised domain. -/
theorem revise_made_length {c : Crossword} {d : Domains} {x y : Variable}
    (hnd : (d x).Nodup) (h : (revise c d x y).2 = true) :
    ((revise c d x y).1 x).length < (d x).length := by
  cases hov : c.overlaps x y with
  | none => rw [revise_none hov] at h; cases h
  | some p =>
    obtain ⟨kx, ky⟩ := p
    obtain ⟨h1, h2⟩ := revise_char hov hnd
    rw [h1]
    rw [h2] at h
    rcases List.any_eq_true.mp h with ⟨w, hwmem, hw⟩
    exact filter_length_lt hwmem (by simpa using hw)

-- Well-formedness extraction and membership facts.

/-- The vocabulary of a well-formed puzzle has no duplicates. -/
theorem wf_words_nodup {c : Crossword} (h : wf c = true) : c.words.Nodup := by
  unfold wf at h
  simp only [Bool.and_eq_true, decide_eq_true_eq] at h
  exact h.1

/-- Entry of the well-formedness table for a pair of puzzle variables. -/
theorem wf_ok {c : Crossword} (h : wf c = true) {x y : Variable}
    (hx : x ∈ c.vars) (hy : y ∈ c.vars) : overlapOkB c x y = true := by
  unfold wf at h
  simp only [Bool.and_eq_true, List.all_eq_true] at h
  exact h.2 x hx y hy

/-- No variable of a well-formed puzzle overlaps itself. -/
theorem wf_self {c : Crossword} (h : wf c = true) {v : Variable}
    (hv : v ∈ c.vars) : c.overlaps v v = none := by
  have hok := wf_ok h hv hv
  unfold overlapOkB at hok
  rw [if_pos rfl] at hok
  simpa using hok

/-- The overlap table of a well-formed puzzle is symmetric. -/
theorem wf_symm {c : Crossword} (h : wf c = true) {x y : Variable}
    {i j : Nat} (hx : x ∈ c.vars) (hy : y ∈ c.vars)
    (hov : c.overlaps x y = some (i, j)) : c.overlaps y x = some (j, i) := by
  have hok := wf_ok h hx hy
  unfold overlapOkB at hok
  by_cases hxy : x = y
  · subst hxy
    rw [wf_self h hx] at hov
    cases hov
  · rw [if_neg hxy, hov] at hok
    simp only [Bool.and_eq_true, beq_iff_eq] at hok
    exact hok.1.1

/-- Overlap indices of a well-formed puzzle lie inside both slots. -/
theorem wf_lt {c : Crossword} (h : wf c = true) {x y : Variable}
    {i j : Nat} (hx : x ∈ c.vars) (hy : y ∈ c.vars)
    (hov : c.overlaps x y = some (i, j)) : i < x.length ∧ j < y.length := by
  have hok := wf_ok h hx hy
  unfold overlapOkB at hok
  by_cases hxy : x = y
  · subst hxy
    rw [wf_self h hx] at hov
    cases hov
  · rw [if_neg hxy, hov] at hok
    simp only [Bool.and_eq_true, beq_iff_eq, decide_eq_true_eq] at hok
    exact ⟨hok.1.2, hok.2⟩

/-- Distinct overlapping variables of a well-formed puzzle are distinct. -/
theorem wf_ne {c : Crossword} (h : wf c = true) {x y : Variable}
    {i j : Nat} (hx : x ∈ c.vars) (hy : y ∈ c.vars)
    (hov : c.overlaps x y = some (i, j)) : x ≠ y := by
  intro he
  subst he
  rw [wf_self h hx] at hov
  cases hov

/-- Membership in the arc list. -/
theorem mem_allArcs {c : Crossword} {x y : Variable} :
    (x, y) ∈ allArcs c ↔ x ∈ c.vars ∧ y ∈ c.vars ∧ y ≠ x := by
  unfold allArcs
  simp only [List.mem_flatMap, List.mem_map, List.mem_filter]
  constructor
  · rintro ⟨v1, hv1, v2, ⟨hv2, hne⟩, he⟩
    cases he
    refine ⟨hv1, hv2, ?_⟩
    simpa using hne
  · rintro ⟨hx, hy, hne⟩
    exact ⟨x, hx, y, ⟨hy, by simpa using hne⟩, rfl⟩

/-- First components of queued arcs are puzzle variables. -/
theorem allArcs_fst {c : Crossword} {a : Variable × Variable}
    (h : a ∈ allArcs c) : a.1 ∈ c.vars := by
  obtain ⟨x, y⟩ := a
  exact (mem_allArcs.mp h).1

/-- Membership in the neighbor list. -/
theorem mem_neighbors {c : Crossword} {v u : Variable} :
    u ∈ neighbors c v ↔
      u ∈ c.vars ∧ u ≠ v ∧ (c.overlaps u v).isSome = true := by
  unfold neighbors
  simp only [List.mem_filter, Bool.and_eq_true, Bool.not_eq_true',
    beq_eq_false_iff_ne]

/-- Pointwise bounded domains have bounded total size. -/
theorem sum_map_le {l : List Variable} {f g : Variable → Nat}
    (h : ∀ v ∈ l, f v ≤ g v) : (l.map f).sum ≤ (l.map g).sum := by
  induction l with
  | nil => simp
  | cons v t ih =>
    simp only [List.map_cons, List.sum_cons]
    have := h v (List.mem_cons_self v t)
    have := ih (fun u hu => h u (List.mem_cons_of_mem _ hu))
    omega

/-- A strict pointwise decrease at a member makes the total strictly
smaller. -/
theorem sum_map_lt {l : List Variable} {f g : Variable → Nat}
    (h : ∀ v ∈ l, f v ≤ g v) {x : Variable} (hx : x ∈ l)
    (hlt : f x < g x) : (l.map f).sum < (l.map g).sum := by
  induction l with
  | nil => cases hx
  | cons v t ih =>
    simp only [List.map_cons, List.sum_cons]
    have h1 := h v (List.mem_cons_self v t)
    have h2 := sum_map_le (fun u hu => h u (List.mem_cons_of_mem _ hu))
    rcases List.mem_cons.mp hx with he | hm
    · subst he; omega
    · have := ih (fun u hu => h u (List.mem_cons_of_mem _ hu)) hm
      omega

/-- Revision never grows the store. -/
theorem totalSize_revise_le (c : Crossword) (d : Domains) (x y : Variable) :
    totalSize c (revise c d x y).1 ≤ totalSize c d :=
  sum_map_le (fun v _ => (revise_sublist c d x y v).length_le)

/-- Nodup domains stay nodup through revision. -/
theorem revise_nodup {c : Crossword} {d : Domains} {x y : Variable}
    (h : ∀ v, (d v).Nodup) : ∀ v, ((revise c d x y).1 v).Nodup :=
  fun v => (revise_sublist c d x y v).nodup (h v)

-- Unfolding equations for the AC-3 loop.

/-- The AC-3 loop on an empty queue reports success. -/
theorem ac3Loop_nil (c : Crossword) (n : Nat) (d : Domains) :
    ac3Loop c (n + 1) d [] = .res true d := rfl

/-- One step of the AC-3 loop. -/
theorem ac3Loop_cons (c : Crossword) (n : Nat) (d : Domains)
    (arc : Variable × Variable) (rest : List (Variable × Variable)) :
    ac3Loop c (n + 1) d (arc :: rest) =
      match c.overlaps arc.1 arc.2 with
      | none => ac3Loop c n d rest
      | some _ =>
        let r := revise c d arc.1 arc.2
        if (r.1 arc.1).length = 0 then .res false r.1
        else if r.2 then
          ac3Loop c n r.1
            (rest ++ (allArcs c).filter
              (fun (pa : Variable × Variable) => pa.2 == arc.1))
        else ac3Loop c n r.1 rest := rfl

/-- With the canonical fuel bound the AC-3 loop always completes: each
iteration either pops an arc without revising, or strictly shrinks the
store while enqueuing at most all arcs. -/
theorem ac3Loop_isSome {c : Crossword} :
    ∀ (fuel : Nat) (d : Domains) (queue : List (Variable × Variable)),
      (∀ v, (d v).Nodup) →
      (∀ a ∈ queue, a.1 ∈ c.vars) →
      totalSize c d * ((allArcs c).length + 1) + queue.length < fuel →
      (ac3Loop c fuel d queue).flag.isSome = true := by
  intro fuel
  induction fuel with
  | zero =>
    intro d queue _ _ hlt
    exact absurd hlt (Nat.not_lt_zero _)
  | succ n ih =>
    intro d queue hnd hq hlt
    cases queue with
    | nil => simp [ac3Loop_nil, AC3Out.flag]
    | cons arc rest =>
      have harc1 : arc.1 ∈ c.vars := hq arc (List.mem_cons_self _ _)
      rw [ac3Loop_cons]
      cases hov : c.overlaps arc.1 arc.2 with
      | none =>
        refine ih d rest hnd
          (fun a ha => hq a (List.mem_cons_of_mem _ ha)) ?_
        simp only [List.length_cons] at hlt
        omega
      | some p =>
        simp only
        by_cases hzero : ((revise c d arc.1 arc.2).1 arc.1).length = 0
        · rw [if_pos hzero]
          rfl
        · rw [if_neg hzero]
          have hndr := revise_nodup (c := c) (x := arc.1) (y := arc.2) hnd
          by_cases hmade : (revise c d arc.1 arc.2).2 = true
          · rw [if_pos hmade]
            have hlt' : totalSize c (revise c d arc.1 arc.2).1 < totalSize c d :=
              sum_map_lt (fun v _ => (revise_sublist c d arc.1 arc.2 v).length_le)
                harc1 (revise_made_length (hnd arc.1) hmade)
            refine ih _ _ hndr ?_ ?_
            · intro a ha
              rcases List.mem_append.mp ha with h1 | h1
              · exact hq a (List.mem_cons_of_mem _ h1)
              · exact allArcs_fst (List.mem_filter.mp h1).1
            · have hfil : ((allArcs c).filter
                  (fun (pa : Variable × Variable) => pa.2 == arc.1)).length ≤
                    (allArcs c).length := (List.filter_sublist _).length_le
              have hmul : totalSize c (revise c d arc.1 arc.2).1 *
                    ((allArcs c).length + 1) + ((allArcs c).length + 1) ≤
                  totalSize c d * ((allArcs c).length + 1) := by
                have h1 : totalSize c (revise c d arc.1 arc.2).1 + 1 ≤
                    totalSize c d := hlt'
                calc totalSize c (revise c d arc.1 arc.2).1 *
                      ((allArcs c).length + 1) + ((allArcs c).length + 1)
                    = (totalSize c (revise c d arc.1 arc.2).1 + 1) *
                      ((allArcs c).length + 1) := by ring
                  _ ≤ totalSize c d * ((allArcs c).length + 1) :=
                      Nat.mul_le_mul_right _ h1
              simp only [List.length_append, List.length_cons] at hlt ⊢
              omega
          · rw [if_neg hmade]
            refine ih _ _ hndr
              (fun a ha => hq a (List.mem_cons_of_mem _ ha)) ?_
            have hle : totalSize c (revise c d arc.1 arc.2).1 ≤ totalSize c d :=
              totalSize_revise_le c d arc.1 arc.2
            have hmul : totalSize c (revise c d arc.1 arc.2).1 *
                  ((allArcs c).length + 1) ≤
                totalSize c d * ((allArcs c).length + 1) :=
              Nat.mul_le_mul_right _ hle
            simp only [List.length_cons] at hlt
            omega

/-- The canonical AC-3 invocation always completes. -/
theorem ac3_isSome {c : Crossword} {d : Domains}
    (hnd : ∀ v, (d v).Nodup) : (ac3 c d).flag.isSome = true := by
  unfold ac3 ac3Fuel
  exact ac3Loop_isSome _ d (allArcs c) hnd (fun a ha => allArcs_fst ha)
    (by omega)

/-- Transport of arc support along pointwise-equal stores. -/
theorem arcSupported_congr {c : Crossword} {d d1 : Domains} {x y : Variable}
    (he : ∀ v, d1 v = d v) (h : arcSupported c d x y) :
    arcSupported c d1 x y := by
  intro kx ky hov wx hwx
  rw [he x] at hwx
  rw [he y]
  exact h kx ky hov wx hwx

/-- Invariant of the AC-3 loop: every genuine arc is either still queued or
currently supported with a non-empty source domain, so success yields the
arc-consistency postcondition together with non-emptiness of every domain
that has an overlapping neighbor. -/
theorem ac3Loop_inv {c : Crossword} :
    ∀ (fuel : Nat) (d : Domains) (queue : List (Variable × Variable))
      (d' : Domains),
      (∀ v, (d v).Nodup) →
      (∀ a ∈ queue, a ∈ allArcs c) →
      (∀ x y, (x, y) ∈ allArcs c → (c.overlaps x y).isSome = true →
        ((x, y) ∈ queue ∨ (arcSupported c d x y ∧ d x ≠ []))) →
      ac3Loop c fuel d queue = .res true d' →
      ∀ x y, (x, y) ∈ allArcs c → (c.overlaps x y).isSome = true →
        arcSupported c d' x y ∧ d' x ≠ [] := by
  intro fuel
  induction fuel with
  | zero =>
    intro d queue d' _ _ _ hrun
    rw [show ac3Loop c 0 d queue = .out d from rfl] at hrun
    cases hrun
  | succ n ih =>
    intro d queue d' hnd hqa hinv hrun
    cases queue with
    | nil =>
      rw [ac3Loop_nil] at hrun
      cases hrun
      intro x y hxy hov
      rcases hinv x y hxy hov with h | h
      · cases h
      · exact h
    | cons arc rest =>
      have harc : arc ∈ allArcs c := hqa arc (List.mem_cons_self _ _)
      have harc21 : arc.2 ≠ arc.1 := by
        obtain ⟨a1, a2⟩ := arc
        exact (mem_allArcs.mp harc).2.2
      rw [ac3Loop_cons] at hrun
      cases hov12 : c.overlaps arc.1 arc.2 with
      | none =>
        rw [hov12] at hrun
        refine ih d rest d' hnd
          (fun a ha => hqa a (List.mem_cons_of_mem _ ha)) ?_ hrun
        intro x y hxy hov
        rcases hinv x y hxy hov with hq | hs
        · rcases List.mem_cons.mp hq with he | hr
          · exfalso
            have hx1 : x = arc.1 := congrArg Prod.fst he
            have hy2 : y = arc.2 := congrArg Prod.snd he
            rw [hx1, hy2, hov12] at hov
            cases hov
          · exact Or.inl hr
        · exact Or.inr hs
      | some p =>
        rw [hov12] at hrun
        dsimp only at hrun
        obtain ⟨kx, ky⟩ := p
        by_cases hzero : ((revise c d arc.1 arc.2).1 arc.1).length = 0
        · rw [if_pos hzero] at hrun
          cases hrun
        · rw [if_neg hzero] at hrun
          have hone : (revise c d arc.1 arc.2).1 arc.1 ≠ [] := by
            intro he
            exact hzero (by rw [he]; rfl)
          by_cases hmade : (revise c d arc.1 arc.2).2 = true
          · rw [if_pos hmade] at hrun
            refine ih _ _ d' (revise_nodup hnd) ?_ ?_ hrun
            · intro a ha
              rcases List.mem_append.mp ha with h1 | h1
              · exact hqa a (List.mem_cons_of_mem _ h1)
              · exact (List.mem_filter.mp h1).1
            · intro x y hxy hov
              by_cases hy1 : y = arc.1
              · refine Or.inl (List.mem_append.mpr (Or.inr ?_))
                exact List.mem_filter.mpr ⟨hxy, by simp [hy1]⟩
              · by_cases hx1 : x = arc.1
                · by_cases hy2 : y = arc.2
                  · refine Or.inr ⟨?_, by rw [hx1]; exact hone⟩
                    intro kx' ky' hov' wx hwx
                    rw [hx1, hy2, hov12] at hov'
                    simp only [Option.some.injEq, Prod.mk.injEq] at hov'
                    obtain ⟨hk1, hk2⟩ := hov'
                    subst hk1
                    subst hk2
                    rw [hx1] at hwx
                    have hchar := (revise_char hov12 (hnd arc.1)).1
                    rw [hchar] at hwx
                    have hs := (List.mem_filter.mp hwx).2
                    rw [hy2, revise_frame c d arc.1 arc.2 arc.2 harc21]
                    simpa using hs
                  · rcases hinv x y hxy hov with hq | ⟨hsupp, -⟩
                    · rcases List.mem_cons.mp hq with he | hr
                      · exact absurd (congrArg Prod.snd he) hy2
                      · exact Or.inl (List.mem_append.mpr (Or.inl hr))
                    · refine Or.inr ⟨?_, by rw [hx1]; exact hone⟩
                      intro kx' ky' hov' wx hwx
                      rw [revise_frame c d arc.1 arc.2 y hy1]
                      exact hsupp kx' ky' hov' wx
                        ((revise_sublist c d arc.1 arc.2 x).subset hwx)
                · rcases hinv x y hxy hov with hq | ⟨hsupp, hne⟩
                  · rcases List.mem_cons.mp hq with he | hr
                    · exact absurd (congrArg Prod.fst he) hx1
                    · exact Or.inl (List.mem_append.mpr (Or.inl hr))
                  · refine Or.inr ⟨?_, ?_⟩
                    · intro kx' ky' hov' wx hwx
                      rw [revise_frame c d arc.1 arc.2 x hx1] at hwx
                      rw [revise_frame c d arc.1 arc.2 y hy1]
                      exact hsupp kx' ky' hov' wx hwx
                    · rw [revise_frame c d arc.1 arc.2 x hx1]
                      exact hne
          · rw [if_neg hmade] at hrun
            have hnm := revise_not_made
              (Bool.eq_false_iff.mpr hmade)
            refine ih _ _ d' (revise_nodup hnd)
              (fun a ha => hqa a (List.mem_cons_of_mem _ ha)) ?_ hrun
            intro x y hxy hov
            rcases hinv x y hxy hov with hq | ⟨hsupp, hne⟩
            · rcases List.mem_cons.mp hq with he | hr
              · have hx1 : x = arc.1 := congrArg Prod.fst he
                have hy2 : y = arc.2 := congrArg Prod.snd he
                refine Or.inr ⟨?_, by rw [hx1]; exact hone⟩
                refine arcSupported_congr hnm ?_
                intro kx' ky' hov' wx hwx
                rw [hx1, hy2, hov12] at hov'
                simp only [Option.some.injEq, Prod.mk.injEq] at hov'
                obtain ⟨hk1, hk2⟩ := hov'
                subst hk1
                subst hk2
                have hflag := (revise_char hov12 (hnd arc.1)).2
                rw [Bool.eq_false_iff.mpr hmade] at hflag
                have hall := List.any_eq_false.mp hflag.symm
                rw [hx1] at hwx
                have := hall wx hwx
                rw [hy2]
                simpa using this
              · exact Or.inl hr
            · exact Or.inr ⟨arcSupported_congr hnm hsupp, by rw [hnm x]; exact hne⟩

/-- On success from the full arc queue, AC-3 leaves every arc supported and
every domain with an overlapping neighbor non-empty. -/
theorem ac3_success_post {c : Crossword} {d0 d' : Domains}
    (hnd : ∀ v, (d0 v).Nodup) (hrun : ac3 c d0 = .res true d') :
    ∀ x y, (x, y) ∈ allArcs c → (c.overlaps x y).isSome = true →
      arcSupported c d' x y ∧ d' x ≠ [] :=
  ac3Loop_inv _ d0 (allArcs c) d' hnd (fun _ ha => ha)
    (fun _ _ hxy _ => Or.inl hxy) hrun

-- Extraction lemmas for the solution predicate.

/-- A solution draws its words from the vocabulary. -/
theorem sol_vocab {c : Crossword} {t : Variable → Word}
    (h : isSolution c t = true) : ∀ v ∈ c.vars, t v ∈ c.words := by
  unfold isSolution at h
  simp only [Bool.and_eq_true, List.all_eq_true] at h
  intro v hv
  simpa using h.1.1.1 v hv

/-- A solution meets every slot length. -/
theorem sol_len {c : Crossword} {t : Variable → Word}
    (h : isSolution c t = true) : ∀ v ∈ c.vars, (t v).length = v.length := by
  unfold isSolution at h
  simp only [Bool.and_eq_true, List.all_eq_true] at h
  intro v hv
  simpa using h.1.1.2 v hv

/-- A solution assigns pairwise distinct words. -/
theorem sol_distinct {c : Crossword} {t : Variable → Word}
    (h : isSolution c t = true) :
    ∀ x ∈ c.vars, ∀ y ∈ c.vars, x ≠ y → t x ≠ t y := by
  unfold isSolution at h
  simp only [Bool.and_eq_true, List.all_eq_true] at h
  intro x hx y hy hne
  have := h.1.2 x hx y hy
  simp only [Bool.or_eq_true, beq_iff_eq, Bool.not_eq_true', beq_eq_false_iff_ne] at this
  rcases this with h1 | h1
  · exact absurd h1 hne
  · exact h1

/-- A solution agrees on every overlap. -/
theorem sol_overlap {c : Crossword} {t : Variable → Word}
    (h : isSolution c t = true) :
    ∀ x ∈ c.vars, ∀ y ∈ c.vars, ∀ i j, c.overlaps x y = some (i, j) →
      (t x)[i]? = (t y)[j]? := by
  unfold isSolution at h
  simp only [Bool.and_eq_true, List.all_eq_true] at h
  intro x hx y hy i j hov
  have := h.2 x hx y hy
  rw [hov] at this
  simpa using this

-- Node-consistency enforcement lemmas.

/-- The enforcer leaves non-puzzle entries of the store untouched. -/
theorem enforce_frame {c : Crossword} {d : Domains} {v : Variable}
    (hv : v ∉ c.vars) : enforceNodeConsistency c d v = d v := by
  unfold enforceNodeConsistency
  rw [if_neg hv]

/-- The enforcer only shrinks domains. -/
theorem enforce_sublist (c : Crossword) (d : Domains) (v : Variable) :
    (enforceNodeConsistency c d v).Sublist (d v) := by
  unfold enforceNodeConsistency
  by_cases hv : v ∈ c.vars
  · rw [if_pos hv]
    exact foldl_erase_sublist _ _
  · rw [if_neg hv]

/-- Nodup domains stay nodup through enforcement. -/
theorem enforce_nodup {c : Crossword} {d : Domains}
    (h : ∀ v, (d v).Nodup) : ∀ v, (enforceNodeConsistency c d v).Nodup :=
  fun v => (enforce_sublist c d v).nodup (h v)

/-- On a duplicate-free domain the enforcer keeps exactly the words not
longer than the slot. -/
theorem enforce_char {c : Crossword} {d : Domains} (v : Variable)
    (hv : v ∈ c.vars) (hnd : (d v).Nodup) :
    enforceNodeConsistency c d v =
      (d v).filter (fun w => ! decide (w.length > v.length)) := by
  unfold enforceNodeConsistency
  rw [if_pos hv]
  have hff := foldl_erase_filter
    (fun w => ! decide (w.length > v.length)) (d v) hnd
  rw [← hff]
  congr 1
  apply List.filter_congr
  intro w _
  simp

/-- A word of the right length survives enforcement. -/
theorem mem_enforce_of_len {c : Crossword} {d : Domains} {v : Variable}
    {w : Word} (hv : v ∈ c.vars) (hnd : (d v).Nodup) (hw : w ∈ d v)
    (hlen : w.length = v.length) : w ∈ enforceNodeConsistency c d v := by
  rw [enforce_char v hv hnd]
  exact List.mem_filter.mpr ⟨hw, by simp [hlen]⟩

-- Solution preservation through AC-3.

/-- A solution word always finds support in any domain containing the
solution word of the other variable. -/
theorem findSupport_solution {c : Crossword} (hwf : wf c = true)
    {t : Variable → Word} (hsol : isSolution c t = true) {x y : Variable}
    (hx : x ∈ c.vars) (hy : y ∈ c.vars) {kx ky : Nat}
    (hov : c.overlaps x y = some (kx, ky)) {dy : List Word}
    (hty : t y ∈ dy) : findSupport kx ky (t x) dy = true := by
  apply (findSupport_iff _ _ _ _).mpr
  have hk := (wf_lt hwf hx hy hov).1
  have hkx : kx < (t x).length := by
    rw [sol_len hsol x hx]
    exact hk
  have h1 : ∃ ch, (t x)[kx]? = some ch := by
    rw [List.getElem?_eq_getElem hkx]
    exact ⟨_, rfl⟩
  obtain ⟨ch, hch⟩ := h1
  refine ⟨t y, hty, ch, hch, ?_⟩
  rw [← sol_overlap hsol x hx y hy kx ky hov]
  exact hch

/-- The AC-3 loop preserves a solution in every domain, never reports
failure while one exists, and keeps domains duplicate-free. -/
theorem ac3Loop_solution {c : Crossword} (hwf : wf c = true)
    {t : Variable → Word} (hsol : isSolution c t = true) :
    ∀ (fuel : Nat) (d : Domains) (queue : List (Variable × Variable)),
      (∀ v, (d v).Nodup) →
      (∀ a ∈ queue, a ∈ allArcs c) →
      (∀ v ∈ c.vars, t v ∈ d v) →
      (∀ v, ((ac3Loop c fuel d queue).doms v).Nodup) ∧
        (∀ v ∈ c.vars, t v ∈ (ac3Loop c fuel d queue).doms v) ∧
        (ac3Loop c fuel d queue).flag ≠ some false := by
  intro fuel
  induction fuel with
  | zero =>
    intro d queue hnd _ ht
    exact ⟨hnd, ht, by intro h; cases h⟩
  | succ n ih =>
    intro d queue hnd hqa ht
    cases queue with
    | nil =>
      rw [ac3Loop_nil]
      exact ⟨hnd, ht, by intro h; cases h⟩
    | cons arc rest =>
      have harc : arc ∈ allArcs c := hqa arc (List.mem_cons_self _ _)
      have harcv : arc.1 ∈ c.vars ∧ arc.2 ∈ c.vars ∧ arc.2 ≠ arc.1 := by
        obtain ⟨a1, a2⟩ := arc
        exact mem_allArcs.mp harc
      rw [ac3Loop_cons]
      cases hov12 : c.overlaps arc.1 arc.2 with
      | none =>
        exact ih d rest hnd (fun a ha => hqa a (List.mem_cons_of_mem _ ha)) ht
      | some p =>
        dsimp only
        obtain ⟨kx, ky⟩ := p
        have ht1 : ∀ v ∈ c.vars, t v ∈ (revise c d arc.1 arc.2).1 v := by
          intro v hv
          by_cases hv1 : v = arc.1
          · rw [hv1, (revise_char hov12 (hnd arc.1)).1]
            refine List.mem_filter.mpr ⟨ht arc.1 harcv.1, ?_⟩
            rw [← hv1]
            have hsup := findSupport_solution hwf hsol
              (hv1 ▸ hv) harcv.2.1 hov12 (ht arc.2 harcv.2.1)
            rw [hv1]
            simpa using hsup
          · rw [revise_frame c d arc.1 arc.2 v hv1]
            exact ht v hv
        have hzero : ¬ ((revise c d arc.1 arc.2).1 arc.1).length = 0 := by
          intro he
          have := ht1 arc.1 harcv.1
          rw [List.length_eq_zero.mp he] at this
          cases this
        rw [if_neg hzero]
        by_cases hmade : (revise c d arc.1 arc.2).2 = true
        · rw [if_pos hmade]
          refine ih _ _ (revise_nodup hnd) ?_ ht1
          intro a ha
          rcases List.mem_append.mp ha with h1 | h1
          · exact hqa a (List.mem_cons_of_mem _ h1)
          · exact (List.mem_filter.mp h1).1
        · rw [if_neg hmade]
          exact ih _ _ (revise_nodup hnd)
            (fun a ha => hqa a (List.mem_cons_of_mem _ ha)) ht1

/-- When a solution exists, the canonical AC-3 run returns success,
keeping the solution in every (still duplicate-free) domain. -/
theorem ac3_solution_success {c : Crossword} (hwf : wf c = true)
    {t : Variable → Word} (hsol : isSolution c t = true) {d : Domains}
    (hnd : ∀ v, (d v).Nodup) (ht : ∀ v ∈ c.vars, t v ∈ d v) :
    ∃ d', ac3 c d = .res true d' ∧ (∀ v, (d' v).Nodup) ∧
      (∀ v ∈ c.vars, t v ∈ d' v) := by
  have h3 := ac3Loop_solution hwf hsol (ac3Fuel c d) d (allArcs c) hnd
    (fun _ ha => ha) ht
  have hs := ac3_isSome (c := c) hnd
  cases hres : ac3 c d with
  | out d1 =>
    rw [hres] at hs
    cases hs
  | res b d1 =>
    cases b with
    | false =>
      exfalso
      have := h3.2.2
      unfold ac3 at hres
      rw [hres] at this
      exact this rfl
    | true =>
      refine ⟨d1, rfl, ?_, ?_⟩
      · have := h3.1
        unfold ac3 at hres
        rw [hres] at this
        exact this
      · have := h3.2.1
        unfold ac3 at hres
        rw [hres] at this
        exact this

-- Selection and consistency-check lemmas.

/-- A selected variable is an unassigned puzzle variable. -/
theorem select_mem {c : Crossword} {a : Assignment} {v : Variable}
    (h : selectUnassignedVariable c a = some v) :
    v ∈ c.vars ∧ a v = none := by
  refine ⟨List.mem_of_find?_eq_some h, ?_⟩
  have := List.find?_some h
  simpa [Option.isNone_iff_eq_none] using this

/-- An incomplete assignment always yields a selected variable. -/
theorem select_of_incomplete {c : Crossword} {a : Assignment}
    (h : ¬ assignmentComplete c a = true) :
    ∃ v, selectUnassignedVariable c a = some v := by
  cases hf : selectUnassignedVariable c a with
  | some v => exact ⟨v, rfl⟩
  | none =>
    exfalso
    apply h
    unfold selectUnassignedVariable at hf
    have hall := List.find?_eq_none.mp hf
    unfold assignmentComplete
    rw [List.all_eq_true]
    intro v hv
    have := hall v hv
    cases hav : a v with
    | none => rw [hav] at this; simp at this
    | some w => rfl

/-- No other variable carries the identical word when the duplicate scan
reports none. -/
theorem duplicateExists_false {c : Crossword} {a : Assignment}
    {v : Variable} {w : Word} (h : duplicateExists c a v w = false) :
    ∀ cv ∈ c.vars, cv ≠ v → a cv ≠ some w := by
  intro cv hcv hne hacv
  have := List.any_eq_false.mp h cv hcv
  simp [hne, hacv] at this

/-- What a passed neighbor scan guarantees for each assigned neighbor. -/
theorem checkNeighbors_true {c : Crossword} {a : Assignment} {v : Variable}
    {w : Word} :
    ∀ l, checkNeighbors c a v w l = some true →
      ∀ u ∈ l, ∀ wu, a u = some wu → ∀ i j, c.overlaps v u = some (i, j) →
        ∃ ch, w[i]? = some ch ∧ wu[j]? = some ch := by
  intro l
  induction l with
  | nil =>
    intro _ u hu
    cases hu
  | cons u0 rest ih =>
    intro h u hu wu hwu i j hov
    unfold checkNeighbors at h
    cases hau0 : a u0 with
    | none =>
      rw [hau0] at h
      rcases List.mem_cons.mp hu with he | hr
      · subst he
        rw [hau0] at hwu
        cases hwu
      · exact ih h u hr wu hwu i j hov
    | some wu0 =>
      rw [hau0] at h
      cases hovvu : c.overlaps v u0 with
      | none =>
        rw [hovvu] at h
        rcases List.mem_cons.mp hu with he | hr
        · subst he
          rw [hovvu] at hov
          cases hov
        · exact ih h u hr wu hwu i j hov
      | some p =>
        obtain ⟨i0, j0⟩ := p
        rw [hovvu] at h
        dsimp only at h
        cases hw0 : w[i0]? with
        | none => rw [hw0] at h; cases h
        | some ch1 =>
          rw [hw0] at h
          dsimp only at h
          cases hwu0 : wu0[j0]? with
          | none => rw [hwu0] at h; cases h
          | some ch2 =>
            rw [hwu0] at h
            dsimp only at h
            by_cases heq : ch1 = ch2
            · rw [if_pos heq] at h
              rcases List.mem_cons.mp hu with he | hr
              · subst he
                rw [hovvu] at hov
                simp only [Option.some.injEq, Prod.mk.injEq] at hov
                obtain ⟨hi, hj⟩ := hov
                subst hi
                subst hj
                rw [hau0] at hwu
                injection hwu with hww
                subst hww
                exact ⟨ch1, hw0, by rw [hwu0, heq]⟩
              · exact ih h u hr wu hwu i j hov
            · rw [if_neg heq] at h
              cases h

/-- What a passed consistency check guarantees for each assigned key. -/
theorem consistentAux_true {c : Crossword} {a : Assignment} :
    ∀ l, consistentAux c a l = some true →
      ∀ v ∈ l, ∀ w, a v = some w →
        duplicateExists c a v w = false ∧ w.length = v.length ∧
          checkNeighbors c a v w (neighbors c v) = some true := by
  intro l
  induction l with
  | nil =>
    intro _ v hv
    cases hv
  | cons v0 rest ih =>
    intro h v hv w hw
    unfold consistentAux at h
    cases hav0 : a v0 with
    | none =>
      rw [hav0] at h
      rcases List.mem_cons.mp hv with he | hr
      · subst he
        rw [hav0] at hw
        cases hw
      · exact ih h v hr w hw
    | some w0 =>
      rw [hav0] at h
      dsimp only at h
      by_cases hdup : duplicateExists c a v0 w0 = true
      · rw [if_pos hdup] at h
        cases h
      · rw [if_neg hdup] at h
        by_cases hlen : (!(w0.length == v0.length)) = true
        · rw [if_pos hlen] at h
          cases h
        · rw [if_neg hlen] at h
          cases hcn : checkNeighbors c a v0 w0 (neighbors c v0) with
          | none => rw [hcn] at h; cases h
          | some b =>
            cases b with
            | false => rw [hcn] at h; cases h
            | true =>
              rw [hcn] at h
              rcases List.mem_cons.mp hv with he | hr
              · subst he
                rw [hav0] at hw
                injection hw with hww
                subst hww
                refine ⟨Bool.eq_false_iff.mpr hdup, ?_, hcn⟩
                simp only [Bool.not_eq_true', Bool.not_eq_false] at hlen
                exact beq_iff_eq.mp hlen
              · exact ih h v hr w hw

/-- Semantic reading of a passed consistency check: distinct words, exact
lengths, agreeing overlaps (with the characters defined). -/
theorem consistent_semantic {c : Crossword} {a : Assignment}
    (hwf : wf c = true) (hc : consistent c a = some true) :
    (∀ x ∈ c.vars, ∀ y ∈ c.vars, x ≠ y → ∀ wx wy,
        a x = some wx → a y = some wy → wx ≠ wy) ∧
      (∀ v ∈ c.vars, ∀ w, a v = some w → w.length = v.length) ∧
      (∀ x ∈ c.vars, ∀ y ∈ c.vars, ∀ i j, c.overlaps x y = some (i, j) →
        ∀ wx wy, a x = some wx → a y = some wy →
          ∃ ch, wx[i]? = some ch ∧ wy[j]? = some ch) := by
  have hmain := consistentAux_true c.vars hc
  refine ⟨?_, ?_, ?_⟩
  · intro x hx y hy hne wx wy hax hay
    obtain ⟨hdup, -, -⟩ := hmain x hx wx hax
    intro he
    exact duplicateExists_false hdup y hy (Ne.symm hne)
      (by rw [hay, he])
  · intro v hv w hw
    exact (hmain v hv w hw).2.1
  · intro x hx y hy i j hov wx wy hax hay
    obtain ⟨-, -, hcn⟩ := hmain x hx wx hax
    have hyx : (c.overlaps y x).isSome = true := by
      rw [wf_symm hwf hx hy hov]
      rfl
    have hyne : y ≠ x := (wf_ne hwf hx hy hov).symm
    have hymem : y ∈ neighbors c x := mem_neighbors.mpr ⟨hy, hyne, hyx⟩
    exact checkNeighbors_true _ hcn y hymem wy hay i j hov

/-- The all-unassigned assignment passes the consistency check. -/
theorem consistentAux_allNone {c : Crossword} {a : Assignment}
    (h : ∀ v, a v = none) : ∀ l, consistentAux c a l = some true := by
  intro l
  induction l with
  | nil => rfl
  | cons v rest ih =>
    unfold consistentAux
    rw [h v]
    exact ih

-- Backtracking search lemmas.

/-- What a successful value loop guarantees: some tried word passed the
consistency check and its recursive search returned the result. -/
theorem tryWords_found {c : Crossword} {bt : Assignment → BTOut}
    {v : Variable} {a : Assignment} :
    ∀ ws r, tryWords c bt v a ws = .found r →
      ∃ w ∈ ws, consistent c (setAssign a v (some w)) = some true ∧
        bt (setAssign a v (some w)) = .found r := by
  intro ws
  induction ws with
  | nil =>
    intro r h
    cases h
  | cons w ws ih =>
    intro r h
    unfold tryWords at h
    cases hcons : consistent c (setAssign a v (some w)) with
    | none => rw [hcons] at h; cases h
    | some b =>
      cases b with
      | false =>
        rw [hcons] at h
        obtain ⟨w', hm, hc', hb'⟩ := ih r h
        exact ⟨w', List.mem_cons_of_mem _ hm, hc', hb'⟩
      | true =>
        rw [hcons] at h
        dsimp only at h
        cases hbt : bt (setAssign a v (some w)) with
        | out => rw [hbt] at h; cases h
        | fault => rw [hbt] at h; cases h
        | failure =>
          rw [hbt] at h
          obtain ⟨w', hm, hc', hb'⟩ := ih r h
          exact ⟨w', List.mem_cons_of_mem _ hm, hc', hb'⟩
        | found r0 =>
          rw [hbt] at h
          dsimp only at h
          injection h with he
          subst he
          exact ⟨w, List.mem_cons_self _ _, hcons, hbt⟩

/-- Soundness of the fueled search: starting from a consistent assignment,
any returned assignment is complete and passes the consistency check. -/
theorem backtrackFuel_sound {c : Crossword} {d : Domains} :
    ∀ fuel (a : Assignment) (r : Assignment),
      consistent c a = some true →
      backtrackFuel c d fuel a = .found r →
      assignmentComplete c r = true ∧ consistent c r = some true := by
  intro fuel
  induction fuel with
  | zero =>
    intro a r _ h
    cases h
  | succ n ih =>
    intro a r hcons h
    unfold backtrackFuel at h
    by_cases hcomp : assignmentComplete c a = true
    · rw [if_pos hcomp] at h
      injection h with he
      subst he
      exact ⟨hcomp, hcons⟩
    · rw [if_neg hcomp] at h
      cases hsel : selectUnassignedVariable c a with
      | none => rw [hsel] at h; cases h
      | some v =>
        rw [hsel] at h
        obtain ⟨w, _, hc', hbt⟩ := tryWords_found _ r h
        exact ih _ r hc' hbt

-- Value-ordering membership and unassigned-count lemmas.

/-- Insertion keeps exactly the old elements plus the new one. -/
theorem mem_insertSorted {le : Word → Word → Bool} {w x : Word} :
    ∀ l, x ∈ insertSorted le w l ↔ x = w ∨ x ∈ l := by
  intro l
  induction l with
  | nil => simp [insertSorted]
  | cons y ys ih =>
    unfold insertSorted
    by_cases hle : le w y = true
    · rw [if_pos hle]
      simp [List.mem_cons]
    · rw [if_neg hle]
      simp only [List.mem_cons, ih]
      tauto

/-- Sorting keeps exactly the old elements. -/
theorem mem_insertionSort {le : Word → Word → Bool} {x : Word} :
    ∀ l, x ∈ insertionSort le l ↔ x ∈ l := by
  intro l
  induction l with
  | nil => simp [insertionSort]
  | cons y ys ih =>
    unfold insertionSort
    rw [mem_insertSorted]
    simp [List.mem_cons, ih]

/-- The ordered value list is the domain, reordered. -/
theorem mem_orderDomainValues {c : Crossword} {d : Domains} {v : Variable}
    {a : Assignment} {x : Word} :
    x ∈ orderDomainValues c d v a ↔ x ∈ d v := by
  unfold orderDomainValues
  exact mem_insertionSort (d v)

/-- Filter length is monotone in the predicate. -/
theorem filter_length_mono {l : List Variable} {p q : Variable → Bool}
    (h : ∀ u ∈ l, p u = true → q u = true) :
    (l.filter p).length ≤ (l.filter q).length := by
  induction l with
  | nil => simp
  | cons u t ih =>
    have hi := ih (fun u' hu' => h u' (List.mem_cons_of_mem _ hu'))
    rw [List.filter_cons, List.filter_cons]
    by_cases hp : p u = true
    · rw [if_pos hp, if_pos (h u (List.mem_cons_self u t) hp)]
      simpa using hi
    · rw [if_neg hp]
      by_cases hq : q u = true
      · rw [if_pos hq]
        simp only [List.length_cons]
        omega
      · rw [if_neg hq]
        exact hi

/-- Filter length strictly drops at a member that flips from true to
false. -/
theorem filter_length_strict {l : List Variable} {p q : Variable → Bool}
    (h : ∀ u ∈ l, p u = true → q u = true) {v : Variable} (hv : v ∈ l)
    (hpv : p v = false) (hqv : q v = true) :
    (l.filter p).length < (l.filter q).length := by
  induction l with
  | nil => cases hv
  | cons u t ih =>
    have hmono := filter_length_mono
      (fun u' hu' => h u' (List.mem_cons_of_mem _ hu'))
    rw [List.filter_cons, List.filter_cons]
    rcases List.mem_cons.mp hv with he | hm
    · subst he
      rw [hpv]
      simp only [Bool.false_eq_true, if_false, if_pos hqv, List.length_cons]
      omega
    · have hi := ih (fun u' hu' => h u' (List.mem_cons_of_mem _ hu')) hm
      by_cases hp : p u = true
      · rw [if_pos hp, if_pos (h u (List.mem_cons_self u t) hp)]
        simpa using hi
      · rw [if_neg hp]
        by_cases hq : q u = true
        · rw [if_pos hq]
          simp only [List.length_cons]
          omega
        · rw [if_neg hq]
          exact hi

/-- Assigning an unassigned puzzle variable strictly decreases the
unassigned count. -/
theorem unassignedCount_lt {c : Crossword} {a : Assignment} {v : Variable}
    {w : Word} (hv : v ∈ c.vars) (hav : a v = none) :
    unassignedCount c (setAssign a v (some w)) < unassignedCount c a := by
  unfold unassignedCount
  apply filter_length_strict (v := v) _ hv
  · unfold setAssign
    rw [if_pos rfl]
    rfl
  · rw [hav]
    rfl
  · intro u _ hp
    unfold setAssign at hp
    by_cases huv : u = v
    · rw [if_pos huv] at hp
      cases hp
    · rw [if_neg huv] at hp
      exact hp

/-- The unassigned count never exceeds the number of variables. -/
theorem unassignedCount_le (c : Crossword) (a : Assignment) :
    unassignedCount c a ≤ c.vars.length :=
  (List.filter_sublist _).length_le

-- Fault-freedom of the consistency check on range-safe assignments.

/-- The neighbor scan cannot raise when every involved word is long enough
for every overlap index it is checked at. -/
theorem checkNeighbors_ne_none {c : Crossword} (hwf : wf c = true)
    {a : Assignment} {v : Variable} {w : Word} (hv : v ∈ c.vars)
    (hws : ∀ u ∈ c.vars, ∀ i j, c.overlaps v u = some (i, j) →
      (w[i]?).isSome = true)
    (has : ∀ u ∈ c.vars, ∀ wu, a u = some wu → ∀ i j,
      c.overlaps u v = some (i, j) → (wu[i]?).isSome = true) :
    ∀ l, (∀ u ∈ l, u ∈ c.vars) → checkNeighbors c a v w l ≠ none := by
  intro l
  induction l with
  | nil =>
    intro _ h
    cases h
  | cons u0 rest ih =>
    intro hsub
    have hu0 : u0 ∈ c.vars := hsub u0 (List.mem_cons_self _ _)
    have hrest : ∀ u ∈ rest, u ∈ c.vars :=
      fun u hu => hsub u (List.mem_cons_of_mem _ hu)
    unfold checkNeighbors
    cases hau0 : a u0 with
    | none => exact ih hrest
    | some wu0 =>
      cases hov : c.overlaps v u0 with
      | none => exact ih hrest
      | some p =>
        obtain ⟨i, j⟩ := p
        dsimp only
        have hw1 : (w[i]?).isSome = true := hws u0 hu0 i j hov
        have hw2 : (wu0[j]?).isSome = true :=
          has u0 hu0 wu0 hau0 j i (wf_symm hwf hv hu0 hov)
        cases hwi : w[i]? with
        | none => rw [hwi] at hw1; cases hw1
        | some ch1 =>
          cases hwj : wu0[j]? with
          | none => rw [hwj] at hw2; cases hw2
          | some ch2 =>
            dsimp only
            by_cases heq : ch1 = ch2
            · rw [if_pos heq]
              exact ih hrest
            · rw [if_neg heq]
              intro hc
              cases hc

/-- The consistency check cannot raise when every assigned word is long
enough for every overlap index of its variable. -/
theorem consistentAux_ne_none {c : Crossword} (hwf : wf c = true)
    {a : Assignment}
    (hsafe : ∀ v ∈ c.vars, ∀ w, a v = some w → ∀ u ∈ c.vars, ∀ i j,
      c.overlaps v u = some (i, j) → (w[i]?).isSome = true) :
    ∀ l, (∀ v ∈ l, v ∈ c.vars) → consistentAux c a l ≠ none := by
  intro l
  induction l with
  | nil =>
    intro _ h
    cases h
  | cons v0 rest ih =>
    intro hsub
    have hv0 : v0 ∈ c.vars := hsub v0 (List.mem_cons_self _ _)
    have hrest : ∀ v ∈ rest, v ∈ c.vars :=
      fun v hv => hsub v (List.mem_cons_of_mem _ hv)
    unfold consistentAux
    cases hav0 : a v0 with
    | none => exact ih hrest
    | some w0 =>
      dsimp only
      by_cases hdup : duplicateExists c a v0 w0 = true
      · rw [if_pos hdup]
        intro hc
        cases hc
      · rw [if_neg hdup]
        by_cases hlen : (!(w0.length == v0.length)) = true
        · rw [if_pos hlen]
          intro hc
          cases hc
        · rw [if_neg hlen]
          have hnb : ∀ u ∈ neighbors c v0, u ∈ c.vars :=
            fun u hu => (mem_neighbors.mp hu).1
          have hcn := checkNeighbors_ne_none hwf hv0
            (hsafe v0 hv0 w0 hav0)
            (fun u hu wu hwu i j hov => hsafe u hu wu hwu v0 hv0 i j hov)
            (neighbors c v0) hnb
          cases hres : checkNeighbors c a v0 w0 (neighbors c v0) with
          | none => exact absurd hres hcn
          | some b =>
            cases b with
            | false =>
              intro hc
              cases hc
            | true => exact ih hrest

/-- Arc-consistent domains are range-safe: every remaining word has a
character at every overlap index of its variable. -/
theorem doms_safe_of_post {c : Crossword} (hwf : wf c = true) {d' : Domains}
    (hpost : ∀ x y, (x, y) ∈ allArcs c → (c.overlaps x y).isSome = true →
      arcSupported c d' x y ∧ d' x ≠ []) :
    ∀ v ∈ c.vars, ∀ w ∈ d' v, ∀ u ∈ c.vars, ∀ i j,
      c.overlaps v u = some (i, j) → (w[i]?).isSome = true := by
  intro v hv w hw u hu i j hov
  have hne : u ≠ v := (wf_ne hwf hv hu hov).symm
  have harc : (v, u) ∈ allArcs c := mem_allArcs.mpr ⟨hv, hu, hne⟩
  have hsup := (hpost v u harc (by rw [hov]; rfl)).1 i j hov w hw
  obtain ⟨wy, -, ch, hch, -⟩ := (findSupport_iff _ _ _ _).mp hsup
  rw [hch]
  rfl

-- The fueled search completes (never faults, never exhausts fuel) on
-- range-safe domains.

/-- With range-safe domains, enough fuel, and all assigned words drawn
from the domains, the search returns either failure or an assignment. -/
theorem backtrackFuel_completes {c : Crossword} (hwf : wf c = true)
    {d : Domains}
    (hdr : ∀ v ∈ c.vars, ∀ w ∈ d v, ∀ u ∈ c.vars, ∀ i j,
      c.overlaps v u = some (i, j) → (w[i]?).isSome = true) :
    ∀ fuel (a : Assignment), unassignedCount c a < fuel →
      (∀ v ∈ c.vars, ∀ w, a v = some w → w ∈ d v) →
      (backtrackFuel c d fuel a = .failure ∨
        ∃ r, backtrackFuel c d fuel a = .found r) := by
  intro fuel
  induction fuel with
  | zero =>
    intro a hlt
    exact absurd hlt (Nat.not_lt_zero _)
  | succ n ih =>
    intro a hlt hasafe
    unfold backtrackFuel
    by_cases hcomp : assignmentComplete c a = true
    · rw [if_pos hcomp]
      exact Or.inr ⟨a, rfl⟩
    · rw [if_neg hcomp]
      obtain ⟨v, hsel⟩ := select_of_incomplete hcomp
      rw [hsel]
      obtain ⟨hv, hav⟩ := select_mem hsel
      have hvals : ∀ w ∈ orderDomainValues c d v a, w ∈ d v :=
        fun w hw => mem_orderDomainValues.mp hw
      have htry : ∀ ws, (∀ w ∈ ws, w ∈ d v) →
          (tryWords c (backtrackFuel c d n) v a ws = .failure ∨
           ∃ r, tryWords c (backtrackFuel c d n) v a ws = .found r) := by
        intro ws
        induction ws with
        | nil =>
          intro _
          exact Or.inl rfl
        | cons w ws ihw =>
          intro hmem
          have hwd : w ∈ d v := hmem w (List.mem_cons_self _ _)
          have hrestd : ∀ w' ∈ ws, w' ∈ d v :=
            fun w' hw' => hmem w' (List.mem_cons_of_mem _ hw')
          have hasafe' : ∀ v' ∈ c.vars, ∀ w',
              setAssign a v (some w) v' = some w' → w' ∈ d v' := by
            intro v' hv' w' hw'
            unfold setAssign at hw'
            by_cases hv'v : v' = v
            · rw [if_pos hv'v] at hw'
              injection hw' with he
              subst he
              rw [hv'v]
              exact hwd
            · rw [if_neg hv'v] at hw'
              exact hasafe v' hv' w' hw'
          have hccons : consistent c (setAssign a v (some w)) ≠ none := by
            unfold consistent
            refine consistentAux_ne_none hwf ?_ c.vars (fun v' hv' => hv')
            intro v' hv' w' hw' u hu i j hov
            exact hdr v' hv' w' (hasafe' v' hv' w' hw') u hu i j hov
          unfold tryWords
          cases hcons : consistent c (setAssign a v (some w)) with
          | none => exact absurd hcons hccons
          | some b =>
            cases b with
            | false => exact ihw hrestd
            | true =>
              dsimp only
              have hlt' : unassignedCount c (setAssign a v (some w)) < n := by
                have := unassignedCount_lt (w := w) hv hav
                omega
              rcases ih (setAssign a v (some w)) hlt' hasafe' with hfail | ⟨r, hr⟩
              · rw [hfail]
                exact ihw hrestd
              · rw [hr]
                exact Or.inr ⟨r, rfl⟩
      exact htry (orderDomainValues c d v a) hvals

/-- The consistency check cannot raise when all assigned words come from
range-safe domains. -/
theorem consistent_ne_none_of_safe {c : Crossword} (hwf : wf c = true)
    {d : Domains}
    (hdr : ∀ v ∈ c.vars, ∀ w ∈ d v, ∀ u ∈ c.vars, ∀ i j,
      c.overlaps v u = some (i, j) → (w[i]?).isSome = true)
    {a : Assignment}
    (hasafe : ∀ v ∈ c.vars, ∀ w, a v = some w → w ∈ d v) :
    consistent c a ≠ none := by
  unfold consistent
  refine consistentAux_ne_none hwf ?_ c.vars (fun v' hv' => hv')
  intro v' hv' w' hw' u hu i j hov
  exact hdr v' hv' w' (hasafe v' hv' w' hw') u hu i j hov

/-- The neighbor scan passes on any partial restriction of a solution. -/
theorem checkNeighbors_of_agrees {c : Crossword} (hwf : wf c = true)
    {t : Variable → Word} (hsol : isSolution c t = true) {a : Assignment}
    (hagree : ∀ v ∈ c.vars, ∀ w, a v = some w → w = t v)
    {v0 : Variable} (hv0 : v0 ∈ c.vars) :
    ∀ l, (∀ u ∈ l, u ∈ c.vars) →
      checkNeighbors c a v0 (t v0) l = some true := by
  intro l
  induction l with
  | nil =>
    intro _
    rfl
  | cons u0 rest ih =>
    intro hsub
    have hu0 : u0 ∈ c.vars := hsub u0 (List.mem_cons_self _ _)
    have hrest : ∀ u ∈ rest, u ∈ c.vars :=
      fun u hu => hsub u (List.mem_cons_of_mem _ hu)
    unfold checkNeighbors
    cases hau0 : a u0 with
    | none => exact ih hrest
    | some wu0 =>
      have hwu0 : wu0 = t u0 := hagree u0 hu0 wu0 hau0
      subst hwu0
      cases hov : c.overlaps v0 u0 with
      | none => exact ih hrest
      | some p =>
        obtain ⟨i, j⟩ := p
        dsimp only
        have hi : i < (t v0).length := by
          rw [sol_len hsol v0 hv0]
          exact (wf_lt hwf hv0 hu0 hov).1
        obtain ⟨ch, hch⟩ : ∃ ch, (t v0)[i]? = some ch := by
          rw [List.getElem?_eq_getElem hi]
          exact ⟨_, rfl⟩
        have h2 : (t u0)[j]? = some ch := by
          rw [← sol_overlap hsol v0 hv0 u0 hu0 i j hov]
          exact hch
        rw [hch]
        dsimp only
        rw [h2]
        dsimp only
        rw [if_pos rfl]
        exact ih hrest

/-- Any partial restriction of a solution passes the consistency check. -/
theorem consistent_of_agrees {c : Crossword} (hwf : wf c = true)
    {t : Variable → Word} (hsol : isSolution c t = true) {a : Assignment}
    (hagree : ∀ v ∈ c.vars, ∀ w, a v = some w → w = t v) :
    consistent c a = some true := by
  unfold consistent
  have main : ∀ l, (∀ v ∈ l, v ∈ c.vars) → consistentAux c a l = some true := by
    intro l
    induction l with
    | nil =>
      intro _
      rfl
    | cons v0 rest ih =>
      intro hsub
      have hv0 : v0 ∈ c.vars := hsub v0 (List.mem_cons_self _ _)
      have hrest : ∀ v ∈ rest, v ∈ c.vars :=
        fun v hv => hsub v (List.mem_cons_of_mem _ hv)
      unfold consistentAux
      cases hav0 : a v0 with
      | none => exact ih hrest
      | some w0 =>
        have hw0 : w0 = t v0 := hagree v0 hv0 w0 hav0
        subst hw0
        dsimp only
        have hdupf : duplicateExists c a v0 (t v0) = false := by
          unfold duplicateExists
          rw [List.any_eq_false]
          intro cv hcv
          intro hb
          simp only [Bool.and_eq_true, Bool.not_eq_true', beq_eq_false_iff_ne,
            beq_iff_eq] at hb
          obtain ⟨hne, hacv⟩ := hb
          have hcvt : t cv = t v0 := (hagree cv hcv _ hacv).symm.trans rfl
          exact sol_distinct hsol cv hcv v0 hv0 hne hcvt
        rw [if_neg (by rw [hdupf]; simp)]
        have hlenb : ¬ ((!((t v0).length == v0.length)) = true) := by
          rw [beq_iff_eq.mpr (sol_len hsol v0 hv0)]
          simp
        rw [if_neg hlenb]
        rw [checkNeighbors_of_agrees hwf hsol hagree hv0 (neighbors c v0)
          (fun u hu => (mem_neighbors.mp hu).1)]
        exact ih hrest
  exact main c.vars (fun v hv => hv)

/-- Completeness of the fueled search: if a solution exists whose words
remain in the (range-safe) domains, the search finds some assignment. -/
theorem backtrackFuel_complete {c : Crossword} (hwf : wf c = true)
    {t : Variable → Word} (hsol : isSolution c t = true) {d : Domains}
    (htd : ∀ v ∈ c.vars, t v ∈ d v)
    (hdr : ∀ v ∈ c.vars, ∀ w ∈ d v, ∀ u ∈ c.vars, ∀ i j,
      c.overlaps v u = some (i, j) → (w[i]?).isSome = true) :
    ∀ fuel (a : Assignment), unassignedCount c a < fuel →
      (∀ v ∈ c.vars, ∀ w, a v = some w → w ∈ d v) →
      (∀ v ∈ c.vars, ∀ w, a v = some w → w = t v) →
      ∃ r, backtrackFuel c d fuel a = .found r := by
  intro fuel
  induction fuel with
  | zero =>
    intro a hlt
    exact absurd hlt (Nat.not_lt_zero _)
  | succ n ih =>
    intro a hlt hasafe hagree
    unfold backtrackFuel
    by_cases hcomp : assignmentComplete c a = true
    · rw [if_pos hcomp]
      exact ⟨a, rfl⟩
    · rw [if_neg hcomp]
      obtain ⟨v, hsel⟩ := select_of_incomplete hcomp
      rw [hsel]
      obtain ⟨hv, hav⟩ := select_mem hsel
      have htv : t v ∈ orderDomainValues c d v a :=
        mem_orderDomainValues.mpr (htd v hv)
      have hvals : ∀ w ∈ orderDomainValues c d v a, w ∈ d v :=
        fun w hw => mem_orderDomainValues.mp hw
      have htry : ∀ ws, (∀ w ∈ ws, w ∈ d v) → t v ∈ ws →
          ∃ r, tryWords c (backtrackFuel c d n) v a ws = .found r := by
        intro ws
        induction ws with
        | nil =>
          intro _ htv'
          cases htv'
        | cons w ws ihw =>
          intro hmem htv'
          have hwd : w ∈ d v := hmem w (List.mem_cons_self _ _)
          have hrestd : ∀ w' ∈ ws, w' ∈ d v :=
            fun w' hw' => hmem w' (List.mem_cons_of_mem _ hw')
          have hasafe' : ∀ v' ∈ c.vars, ∀ w',
              setAssign a v (some w) v' = some w' → w' ∈ d v' := by
            intro v' hv' w' hw'
            unfold setAssign at hw'
            by_cases hv'v : v' = v
            · rw [if_pos hv'v] at hw'
              injection hw' with he
              subst he
              rw [hv'v]
              exact hwd
            · rw [if_neg hv'v] at hw'
              exact hasafe v' hv' w' hw'
          unfold tryWords
          cases hcons : consistent c (setAssign a v (some w)) with
          | none =>
            exact absurd hcons (consistent_ne_none_of_safe hwf hdr hasafe')
          | some b =>
            cases b with
            | false =>
              by_cases hw : w = t v
              · exfalso
                have hagree' : ∀ v' ∈ c.vars, ∀ w',
                    setAssign a v (some w) v' = some w' → w' = t v' := by
                  intro v' hv' w' hw'
                  unfold setAssign at hw'
                  by_cases hv'v : v' = v
                  · rw [if_pos hv'v] at hw'
                    injection hw' with he
                    subst he
                    rw [hv'v, hw]
                  · rw [if_neg hv'v] at hw'
                    exact hagree v' hv' w' hw'
                have := consistent_of_agrees hwf hsol hagree'
                rw [hcons] at this
                cases this
              · have htv'' : t v ∈ ws := by
                  rcases List.mem_cons.mp htv' with he | hm
                  · exact absurd he.symm hw
                  · exact hm
                exact ihw hrestd htv''
            | true =>
              dsimp only
              have hlt' : unassignedCount c (setAssign a v (some w)) < n := by
                have := unassignedCount_lt (w := w) hv hav
                omega
              rcases backtrackFuel_completes hwf hdr n
                  (setAssign a v (some w)) hlt' hasafe' with hfail | ⟨r, hr⟩
              · by_cases hw : w = t v
                · exfalso
                  have hagree' : ∀ v' ∈ c.vars, ∀ w',
                      setAssign a v (some w) v' = some w' → w' = t v' := by
                    intro v' hv' w' hw'
                    unfold setAssign at hw'
                    by_cases hv'v : v' = v
                    · rw [if_pos hv'v] at hw'
                      injection hw' with he
                      subst he
                      rw [hv'v, hw]
                    · rw [if_neg hv'v] at hw'
                      exact hagree v' hv' w' hw'
                  obtain ⟨r, hfound⟩ := ih (setAssign a v (some w)) hlt'
                    hasafe' hagree'
                  rw [hfail] at hfound
                  cases hfound
                · have htv'' : t v ∈ ws := by
                    rcases List.mem_cons.mp htv' with he | hm
                    · exact absurd he.symm hw
                    · exact hm
                  rw [hfail]
                  exact ihw hrestd htv''
              · rw [hr]
                exact ⟨r, rfl⟩
      exact htry (orderDomainValues c d v a) hvals htv

-- Claim theorems.

/-- C1.  Search soundness: for every (well-formed) puzzle, vocabulary and
domain store, if the backtracking search started from the empty assignment
(as `solve` invokes it) returns an assignment, that assignment maps every
puzzle variable to a word, the assigned words are pairwise distinct, each
word's length equals its variable's slot length, and every pair of
overlapping variables agrees at the overlap indices. -/
theorem thm_C1 (c : Crossword) (d : Domains) (hwf : wf c = true)
    (hb : (backtrack c d (fun _ => none)).isFound = true) :
    (∀ v ∈ c.vars,
        ((backtrack c d (fun _ => none)).getA v).isSome = true) ∧
      (∀ x ∈ c.vars, ∀ y ∈ c.vars, x ≠ y → ∀ wx wy,
        (backtrack c d (fun _ => none)).getA x = some wx →
        (backtrack c d (fun _ => none)).getA y = some wy → wx ≠ wy) ∧
      (∀ v ∈ c.vars, ∀ w,
        (backtrack c d (fun _ => none)).getA v = some w →
        w.length = v.length) ∧
      (∀ x ∈ c.vars, ∀ y ∈ c.vars, ∀ i j, c.overlaps x y = some (i, j) →
        ∀ wx wy, (backtrack c d (fun _ => none)).getA x = some wx →
          (backtrack c d (fun _ => none)).getA y = some wy →
          ∃ ch, wx[i]? = some ch ∧ wy[j]? = some ch) := by
  have h0 : consistent c (fun _ => none) = some true := by
    unfold consistent
    exact consistentAux_allNone (fun _ => rfl) c.vars
  cases hres : backtrack c d (fun _ => none) with
  | out => rw [hres] at hb; exact Bool.noConfusion hb
  | fault => rw [hres] at hb; exact Bool.noConfusion hb
  | failure => rw [hres] at hb; exact Bool.noConfusion hb
  | found r =>
    unfold backtrack at hres
    obtain ⟨hcomp, hcons⟩ := backtrackFuel_sound _ _ r h0 hres
    have hsome : ∀ v ∈ c.vars, (r v).isSome = true := by
      intro v hv
      exact List.all_eq_true.mp hcomp v hv
    obtain ⟨hdist, hlen, hov⟩ := consistent_semantic hwf hcons
    exact ⟨hsome, hdist, hlen, hov⟩

/-- C1 witness: on the two-slot crossing puzzle the search run by `solve`
over the initial domains returns an assignment, so the soundness theorem
applies. -/
theorem thm_C1_witness :
    wf cW = true ∧
      (backtrack cW (initialDomains cW) (fun _ => none)).isFound = true ∧
      ((∀ v ∈ cW.vars,
          ((backtrack cW (initialDomains cW) (fun _ => none)).getA v).isSome
            = true) ∧
        (∀ x ∈ cW.vars, ∀ y ∈ cW.vars, x ≠ y → ∀ wx wy,
          (backtrack cW (initialDomains cW) (fun _ => none)).getA x = some wx →
          (backtrack cW (initialDomains cW) (fun _ => none)).getA y = some wy →
          wx ≠ wy) ∧
        (∀ v ∈ cW.vars, ∀ w,
          (backtrack cW (initialDomains cW) (fun _ => none)).getA v = some w →
          w.length = v.length) ∧
        (∀ x ∈ cW.vars, ∀ y ∈ cW.vars, ∀ i j, cW.overlaps x y = some (i, j) →
          ∀ wx wy,
            (backtrack cW (initialDomains cW) (fun _ => none)).getA x = some wx →
            (backtrack cW (initialDomains cW) (fun _ => none)).getA y = some wy →
            ∃ ch, wx[i]? = some ch ∧ wy[j]? = some ch)) :=
  ⟨by decide, by decide, thm_C1 cW (initialDomains cW) (by decide) (by decide)⟩

/-- C2.  Search completeness: on a well-formed puzzle, if some assignment
of vocabulary words to all variables satisfies every length, overlap and
distinctness constraint, then `solve` (node consistency, AC-3, then
backtracking from the empty assignment) returns an assignment, and the
returned assignment satisfies all those constraints. -/
theorem thm_C2 (c : Crossword) (hwf : wf c = true) (t : Variable → Word)
    (hsol : isSolution c t = true) :
    (solve c).isFound = true ∧
      (∀ v ∈ c.vars, ((solve c).getA v).isSome = true) ∧
      (∀ x ∈ c.vars, ∀ y ∈ c.vars, x ≠ y → ∀ wx wy,
        (solve c).getA x = some wx → (solve c).getA y = some wy →
        wx ≠ wy) ∧
      (∀ v ∈ c.vars, ∀ w, (solve c).getA v = some w →
        w.length = v.length) ∧
      (∀ x ∈ c.vars, ∀ y ∈ c.vars, ∀ i j, c.overlaps x y = some (i, j) →
        ∀ wx wy, (solve c).getA x = some wx → (solve c).getA y = some wy →
        ∃ ch, wx[i]? = some ch ∧ wy[j]? = some ch) := by
  have hnd0 : ∀ v, ((initialDomains c) v).Nodup :=
    fun _ => wf_words_nodup hwf
  have hnd1 : ∀ v, ((enforceNodeConsistency c (initialDomains c)) v).Nodup :=
    enforce_nodup hnd0
  have ht1 : ∀ v ∈ c.vars,
      t v ∈ (enforceNodeConsistency c (initialDomains c)) v := by
    intro v hv
    exact mem_enforce_of_len hv (hnd0 v) (sol_vocab hsol v hv)
      (sol_len hsol v hv)
  obtain ⟨d2, hac3, hnd2, ht2⟩ :=
    ac3_solution_success hwf hsol hnd1 ht1
  have hpost := ac3_success_post hnd1 hac3
  have hdr := doms_safe_of_post hwf hpost
  have hfuel : unassignedCount c (fun _ => none) < c.vars.length + 1 :=
    Nat.lt_succ_of_le (unassignedCount_le c _)
  obtain ⟨r, hr⟩ := backtrackFuel_complete hwf hsol ht2 hdr
    (c.vars.length + 1) (fun _ => none) hfuel
    (by intro v _ w hw; cases hw) (by intro v _ w hw; cases hw)
  have hsolve : solve c = .found r := by
    unfold solve backtrack
    rw [hac3]
    exact hr
  have h0 : consistent c (fun _ => none) = some true := by
    unfold consistent
    exact consistentAux_allNone (fun _ => rfl) c.vars
  obtain ⟨hcomp, hcons⟩ := backtrackFuel_sound _ _ r h0 hr
  obtain ⟨hdist, hlen, hov⟩ := consistent_semantic hwf hcons
  rw [hsolve]
  refine ⟨rfl, ?_, hdist, hlen, hov⟩
  intro v hv
  exact List.all_eq_true.mp hcomp v hv

/-- C2 witness: the two-slot crossing puzzle with vocabulary
{"at","to","ox"} has the solution `vA ↦ "at"`, `vB ↦ "to"`, so `solve`
returns a satisfying assignment. -/
theorem thm_C2_witness :
    wf cW = true ∧ isSolution cW tW = true ∧
      ((solve cW).isFound = true ∧
        (∀ v ∈ cW.vars, ((solve cW).getA v).isSome = true) ∧
        (∀ x ∈ cW.vars, ∀ y ∈ cW.vars, x ≠ y → ∀ wx wy,
          (solve cW).getA x = some wx → (solve cW).getA y = some wy →
          wx ≠ wy) ∧
        (∀ v ∈ cW.vars, ∀ w, (solve cW).getA v = some w →
          w.length = v.length) ∧
        (∀ x ∈ cW.vars, ∀ y ∈ cW.vars, ∀ i j, cW.overlaps x y = some (i, j) →
          ∀ wx wy, (solve cW).getA x = some wx →
            (solve cW).getA y = some wy →
            ∃ ch, wx[i]? = some ch ∧ wy[j]? = some ch)) :=
  ⟨by decide, by decide, thm_C2 cW (by decide) tW (by decide)⟩

/-- C3.  The node-consistency enforcer removes only words longer than the
slot: on a single slot of length 3 with vocabulary {"ab"} it keeps the
length-2 word "ab", whose length differs from the slot length — refuting
the claim that every word of differing length is removed. -/
theorem thm_C3 :
    (enforceNodeConsistency cE3 (initialDomains cE3)) v3 = [['a', 'b']] ∧
      (['a', 'b'] : Word).length ≠ v3.length := by
  refine ⟨by decide, by decide⟩

/-- C4.  `solve` unconditionally hands the post-AC-3 store to the
backtracking search — the boolean `ac3` returns is discarded (line 94), so
no short-circuit happens: definitionally, `solve` is the `backtrack` call.
On the infeasible crossing puzzle `cI`, `ac3` reports infeasible
(`False`), yet `solve` still reaches the search, which then reports
failure. -/
theorem thm_C4 :
    (∀ c : Crossword, solve c =
      backtrack c
        ((ac3 c (enforceNodeConsistency c (initialDomains c))).doms)
        (fun _ => none)) ∧
      (ac3 cI (enforceNodeConsistency cI (initialDomains cI))).flag =
        some false ∧
      (solve cI).isFailure = true :=
  ⟨fun _ => rfl, by decide, by decide⟩

/-- C5 counterexample: on the puzzle `cE5` (one overlap-free variable
whose only vocabulary word is longer than the slot), the canonical `ac3`
run after node consistency returns success while the variable's domain is
empty — refuting the claim that success implies every domain non-empty. -/
theorem thm_C5_cex :
    ¬ (((ac3 cE5 (enforceNodeConsistency cE5 (initialDomains cE5))).flag =
          some true) →
        ∀ v ∈ cE5.vars,
          (ac3 cE5 (enforceNodeConsistency cE5 (initialDomains cE5))).doms v
            ≠ []) := by
  decide

/-- C5 (amended).  When the canonical `ac3` run (no queue supplied)
returns success on a well-formed puzzle with duplicate-free domains, every
ordered pair of puzzle variables with a defined overlap is arc-consistent
— each remaining word of `x` has a supporting word in `y`'s domain
agreeing at the overlap indices — and every variable that overlaps some
other variable has a non-empty domain (an overlap-free variable may keep
an empty one). -/
theorem thm_C5 (c : Crossword) (hwf : wf c = true) (d0 : Domains)
    (hnd : ∀ v, (d0 v).Nodup)
    (hsucc : (ac3 c d0).flag = some true) :
    ∀ x ∈ c.vars, ∀ y ∈ c.vars, ∀ i j, c.overlaps x y = some (i, j) →
      (∀ wx ∈ (ac3 c d0).doms x, ∃ wy ∈ (ac3 c d0).doms y,
        ∃ ch, wx[i]? = some ch ∧ wy[j]? = some ch) ∧
        (ac3 c d0).doms x ≠ [] := by
  cases hres : ac3 c d0 with
  | out d1 =>
    rw [hres] at hsucc
    cases hsucc
  | res b d1 =>
    rw [hres] at hsucc
    have hb : b = true := Option.some.inj hsucc
    subst hb
    have hpost := ac3_success_post hnd hres
    intro x hx y hy i j hov
    have hne : y ≠ x := wf_ne hwf hx hy hov |>.symm
    have harc : (x, y) ∈ allArcs c := mem_allArcs.mpr ⟨hx, hy, hne⟩
    obtain ⟨hsupp, hnee⟩ := hpost x y harc (by rw [hov]; rfl)
    refine ⟨?_, hnee⟩
    intro wx hwx
    exact (findSupport_iff _ _ _ _).mp (hsupp i j hov wx hwx)

/-- C5 witness: on the crossing puzzle `cW` the canonical `ac3` run over
the initial domains succeeds, so the amended postcondition applies. -/
theorem thm_C5_witness :
    (ac3 cW (initialDomains cW)).flag = some true ∧
      (∀ x ∈ cW.vars, ∀ y ∈ cW.vars, ∀ i j, cW.overlaps x y = some (i, j) →
        (∀ wx ∈ (ac3 cW (initialDomains cW)).doms x,
          ∃ wy ∈ (ac3 cW (initialDomains cW)).doms y,
          ∃ ch, wx[i]? = some ch ∧ wy[j]? = some ch) ∧
          (ac3 cW (initialDomains cW)).doms x ≠ []) :=
  ⟨by decide, thm_C5 cW (by decide) (initialDomains cW)
    (fun _ => of_decide_eq_true rfl) (by decide)⟩

/-- C6.  Revise contract: with a defined overlap `(kx, ky)` and a
duplicate-free domain, `revise` keeps a word of `x`'s domain iff some word
of `y`'s domain agrees with it at the overlap indices (words too short for
their index never match and never support), and reports `True` iff some
word was removed. -/
theorem thm_C6 (c : Crossword) (d : Domains) (x y : Variable) (kx ky : Nat)
    (hov : c.overlaps x y = some (kx, ky)) (hnd : (d x).Nodup) :
    (∀ w, w ∈ (revise c d x y).1 x ↔
        (w ∈ d x ∧ ∃ wy ∈ d y, ∃ ch, w[kx]? = some ch ∧ wy[ky]? = some ch)) ∧
      ((revise c d x y).2 = true ↔
        ∃ w ∈ d x, ¬ ∃ wy ∈ d y, ∃ ch, w[kx]? = some ch ∧
          wy[ky]? = some ch) := by
  obtain ⟨h1, h2⟩ := revise_char hov hnd
  constructor
  · intro w
    rw [h1, List.mem_filter, findSupport_iff]
  · rw [h2, List.any_eq_true]
    constructor
    · rintro ⟨w, hw, hsup⟩
      refine ⟨w, hw, ?_⟩
      rw [← findSupport_iff]
      simpa using hsup
    · rintro ⟨w, hw, hsup⟩
      refine ⟨w, hw, ?_⟩
      rw [← findSupport_iff] at hsup
      simpa using hsup

/-- C6 witness: on the crossing puzzle `cW`, revising `vA` against `vB`
removes "ox" (no word of `vB`'s domain starts with 'x'), so the reported
flag is `True` by the contract. -/
theorem thm_C6_witness :
    cW.overlaps vA vB = some (1, 0) ∧
      ((initialDomains cW) vA).Nodup ∧
      (revise cW (initialDomains cW) vA vB).2 = true :=
  ⟨rfl, by decide,
    (thm_C6 cW (initialDomains cW) vA vB 1 0 rfl (by decide)).2.mpr
      (by decide)⟩

/-- C7.  The Consistency Check is not total: with `vA ↦ "ab"` (correct
length) and its crossing neighbor `vB ↦ "x"` (too short for overlap index
1), the check hits an out-of-range index and raises `IndexError`
(modelled as `none`) instead of returning `False`. -/
theorem thm_C7 : consistent cE7 aE7 = none := by decide

/-- C8.  `select_unassigned_variable` ignores the domains entirely: on the
all-unassigned assignment over `cW` it returns `vA`, the first variable of
the dict, even when `vB` is also unassigned with a strictly smaller
domain (`dE8`), contradicting the minimum-remaining-values contract. -/
theorem thm_C8 :
    selectUnassignedVariable cW (fun _ => none) = some vA ∧
      (fun _ => (none : Option Word) : Assignment) vB = none ∧
      vB ∈ cW.vars ∧ (dE8 vB).length < (dE8 vA).length := by
  refine ⟨by decide, rfl, by decide, by decide⟩

/-- C9.  `ac3` with a supplied arc list always faults: the local queue is
only initialized in the `arcs == None` branch, so the loop condition
raises `UnboundLocalError` (modelled as `none`) instead of processing the
supplied arcs and returning a boolean. -/
theorem thm_C9 :
    ac3WithArcs cI (initialDomains cI) (some [(vX, vY)]) = none := rfl

/-- C10.  Domain isolation: every variable's initial domain is the full
vocabulary (an independent copy per variable in the Python object graph),
and `revise x y` changes no domain other than `x`'s. -/
theorem thm_C10 :
    (∀ (c : Crossword) (v : Variable), initialDomains c v = c.words) ∧
      (∀ (c : Crossword) (d : Domains) (x y z : Variable), z ≠ x →
        (revise c d x y).1 z = d z) :=
  ⟨fun _ _ => rfl, fun c d x y z hz => revise_frame c d x y z hz⟩

/-- C10 witness: on the crossing puzzle, revising `vA` against `vB`
leaves `vB`'s domain exactly as it was, and `vA`'s initial domain is the
vocabulary. -/
theorem thm_C10_witness :
    initialDomains cW vA = cW.words ∧ vB ≠ vA ∧
      (revise cW (initialDomains cW) vA vB).1 vB = (initialDomains cW) vB :=
  ⟨thm_C10.1 cW vA, by decide,
    thm_C10.2 cW (initialDomains cW) vA vB vB (by decide)⟩
